import Mathlib

/-
Verification of the `codebase_combiner` tool (src/combiner.py) against its
specification.

The program is a single-file Python script that walks a directory tree,
filters entries by an exclusion set and an optional extension whitelist,
renders a textual tree, and concatenates the matching files into one output
document.  We give a shallow embedding of the script:

  * A directory tree is an `FSTree`: files carry their content as an
    `Except String String` (`.error e` models a read that raises, with `e`
    standing for `str(exception)`); directories carry a `listable` flag
    (`false` models `os.listdir` raising `PermissionError`).
  * Paths are `String`s joined with `"/"` (the tool targets POSIX, so
    `os.sep = "/"`); Python string primitives (`split`, `endswith`,
    comparison) are embedded as character-list functions, since real
    file systems and Python strings compare by code point.
  * `os.walk` is embedded by `walk` (top-down, children in list order,
    a directory whose listing fails contributes nothing), `os.path.join`
    by `path_join`, `os.path.relpath` by `relpath` (its behaviour on the
    only inputs the script produces: a path strictly below the base).
  * Python's `sorted` is a stable sort by `≤`; we embed it with
    `List.insertionSort`, which is stable for the total preorders used.
-/

namespace Combiner

/-! Character-level models of the Python string primitives used by the tool. -/

/-- Model of Python `s.split("/")`: split at every separator occurrence,
keeping empty pieces (`"".split("/") = [""]`, `"/a".split("/") = ["", "a"]`). -/
def splitChars : List Char → List (List Char)
  | [] => [[]]
  | c :: cs =>
    match splitChars cs with
    | [] => [[]]
    | s :: ss => if c = '/' then [] :: s :: ss else (c :: s) :: ss

/-- Model of Python `s.endswith(suf)`: literal, case-sensitive suffix test. -/
def endswith (s suf : String) : Bool :=
  suf.data.isSuffixOf s.data

/-- Model of Python string `<`: lexicographic comparison by code point,
with a proper prefix smaller than the longer string. -/
def lexLt : List Char → List Char → Bool
  | [], [] => false
  | [], _ :: _ => true
  | _ :: _, [] => false
  | a :: as, b :: bs => if a < b then true else if b < a then false else lexLt as bs

def strLt (a b : String) : Bool := lexLt a.data b.data

def strEq (a b : String) : Bool := a.data == b.data

/-- Model of Python tuple comparison `(a1, a2) <= (b1, b2)` on string pairs,
as used by `sorted` on the `(file_path, relative_path)` tuples. -/
def tupleLe (a b : String × String) : Bool :=
  strLt a.1 b.1 || (strEq a.1 b.1 && (strLt a.2 b.2 || strEq a.2 b.2))

/-- Model of `os.path.join(a, b)` for a non-absolute `b` (the only way the
script calls it). -/
def path_join (a b : String) : String := a ++ "/" ++ b

/-- Model of `os.path.relpath(absp, base)` on the inputs the script produces:
`absp` strictly below `base`, i.e. `absp = base ++ "/" ++ rest`; the result is
`rest`. -/
def relpath (absp base : String) : String :=
  String.mk (absp.data.drop (base.data.length + 1))

/-! The directory-and-file model. -/

/-- A file-system tree.  A file's `content` is `.ok text` when reading and
UTF-8 decoding succeed and `.error e` when `open`/`read` raises (with `e` for
`str(exception)`).  A directory's `listable` is `false` when `os.listdir` /
`os.scandir` raise `PermissionError` on it. -/
inductive FSTree where
  | file (name : String) (content : Except String String)
  | dir (name : String) (listable : Bool) (children : List FSTree)

def FSTree.name : FSTree → String
  | .file n _ => n
  | .dir n _ _ => n

/-- Model of `os.path.isdir` on an entry we hold in hand. -/
def FSTree.isDir : FSTree → Bool
  | .file _ _ => false
  | .dir _ _ _ => true

def fileNameOf : FSTree → Option String
  | .file n _ => some n
  | .dir _ _ _ => none

mutual
/-- Model of `os.walk(path)` (top-down, `onerror=None`): the pairs
`(root, files)` in traversal order.  The `dirs` component is dropped because
`scan_directory` ignores it.  A directory whose listing raises is skipped
entirely (CPython swallows the error and does not descend). -/
def walk (path : String) : FSTree → List (String × List String)
  | .file _ _ => []
  | .dir _ false _ => []
  | .dir _ true children =>
      (path, children.filterMap fileNameOf) :: walkList path children

/-- Walk of the children of a directory at `path`, in list order; `os.walk`
recurses only into subdirectories. -/
def walkList (path : String) : List FSTree → List (String × List String)
  | [] => []
  | c :: cs =>
      (if c.isDir then walk (path_join path c.name) c else []) ++ walkList path cs
end

/-! The Path Filter (src/combiner.py lines 51-66). -/

/-- `should_skip_path(path, exclude_items)`: split the path into segments by
`os.sep` and test whether any excluded item occurs among them. -/
def should_skip_path (path : String) (exclude_items : List String) : Bool :=
  (splitChars path.data).any (fun part => exclude_items.any (fun e => e.data == part))

/-- `should_skip_file(filename, exclude_items)`: exact membership test. -/
def should_skip_file (filename : String) (exclude_items : List String) : Bool :=
  exclude_items.any (fun e => e.data == filename.data)

/-- `is_included_file(filename, file_types)`: include everything when no file
types are given, else test whether the name ends with one of them. -/
def is_included_file (filename : String) (file_types : List String) : Bool :=
  if file_types.isEmpty then true
  else file_types.any (fun ext => endswith filename ext)

/-! The Combiner scan (src/combiner.py lines 69-90). -/

/-- The list built by `scan_directory` before the final `sorted`: for each
non-skipped root of the walk, the `(file_path, relative_path)` pairs of its
surviving files. -/
def scanPairs (path : String) (fs : FSTree) (exclude_items file_types : List String) :
    List (String × String) :=
  (walk path fs).flatMap (fun rootFiles =>
    if should_skip_path rootFiles.1 exclude_items then []
    else rootFiles.2.filterMap (fun file =>
      if !should_skip_file file exclude_items && is_included_file file file_types then
        some (path_join rootFiles.1 file, relpath (path_join rootFiles.1 file) path)
      else none))

/-- `scan_directory(path, exclude_items, file_types)`: collect the surviving
`(file_path, relative_path)` pairs of `os.walk` and return them sorted as
Python `sorted` sorts tuples of strings. -/
def scan_directory (path : String) (fs : FSTree) (exclude_items file_types : List String) :
    List (String × String) :=
  List.insertionSort (fun a b => tupleLe a b = true)
    (scanPairs path fs exclude_items file_types)

/-! The Tree Renderer (src/combiner.py lines 93-137). -/

/-- A tree line together with the entry it was produced for: the rendered
`line` (the only part `generate_tree` returns), the entry's full path and
whether the entry is a directory.  The extra components let the theorems
speak about which file-system entries appear in the tree. -/
structure TreeEnt where
  line : String
  full : String
  isDir : Bool

/-- The filter of `add_to_tree`: a directory survives unless
`should_skip_path` rejects its full path, a file unless `should_skip_file`
rejects its name or `is_included_file` rejects its extension. -/
def keepEntry (exclude_items file_types : List String) (dir_path : String) (e : FSTree) : Bool :=
  if e.isDir then !should_skip_path (path_join dir_path e.name) exclude_items
  else !should_skip_file e.name exclude_items && is_included_file e.name file_types

/-- Model of `sorted(os.listdir(dir_path))`: the children in lexicographic
name order (Python `sorted` is a stable sort by string `<`). -/
def sortedEntries (children : List FSTree) : List FSTree :=
  List.insertionSort (fun a b => (strLt a.name b.name || strEq a.name b.name) = true) children

theorem sizeOf_filter_le {α} [SizeOf α] (p : α → Bool) (l : List α) :
    sizeOf (l.filter p) ≤ sizeOf l := by
  induction l with
  | nil => simp
  | cons a t ih =>
    simp only [List.filter_cons]
    cases p a
    · simp only [Bool.false_eq_true, if_false, List.cons.sizeOf_spec]
      omega
    · simp only [if_true, List.cons.sizeOf_spec]
      omega

theorem sizeOf_insertionSort {α} [SizeOf α] (r : α → α → Prop) [DecidableRel r] (l : List α) :
    sizeOf (List.insertionSort r l) = sizeOf l :=
  List.Perm.sizeOf_eq_sizeOf (List.perm_insertionSort r l)

mutual
/-- Model of the inner function `add_to_tree(dir_path, prefix)` of
`generate_tree`, instrumented: each produced line is paired with the full
path and the kind of the entry it was produced for (`generate_tree` keeps
only the lines).  A directory with `listable = false` models the
`except PermissionError: return` branch: no entry of its subtree is
produced. -/
def add_to_tree (exclude_items file_types : List String) (dir_path pfx : String)
    (t : FSTree) : List TreeEnt :=
  match t with
  | .file _ _ => []
  | .dir _ false _ => []
  | .dir _ true children =>
      renderEntries exclude_items file_types dir_path pfx
        ((sortedEntries children).filter (keepEntry exclude_items file_types dir_path))
termination_by sizeOf t
decreasing_by
  have h1 := sizeOf_filter_le (keepEntry exclude_items file_types dir_path)
    (sortedEntries children)
  have h2 := sizeOf_insertionSort
    (fun a b : FSTree => (strLt a.name b.name || strEq a.name b.name) = true) children
  simp only [sortedEntries] at h1 ⊢
  simp only [FSTree.dir.sizeOf_spec]
  omega

/-- The enumeration loop of `add_to_tree` over the filtered entries: the
last entry gets branch `"└── "` and continuation `"    "`, every other entry
`"├── "` and `"│   "`; the recursion descends only into directories. -/
def renderEntries (exclude_items file_types : List String) (dir_path pfx : String)
    (l : List FSTree) : List TreeEnt :=
  match l with
  | [] => []
  | [e] =>
      ⟨pfx ++ "└── " ++ e.name, path_join dir_path e.name, e.isDir⟩ ::
        (if e.isDir then
          add_to_tree exclude_items file_types (path_join dir_path e.name) (pfx ++ "    ") e
        else [])
  | e :: e2 :: rest =>
      (⟨pfx ++ "├── " ++ e.name, path_join dir_path e.name, e.isDir⟩ ::
        (if e.isDir then
          add_to_tree exclude_items file_types (path_join dir_path e.name) (pfx ++ "│   ") e
        else [])) ++ renderEntries exclude_items file_types dir_path pfx (e2 :: rest)
termination_by sizeOf l
decreasing_by
  · simp only [List.cons.sizeOf_spec, List.nil.sizeOf_spec]
    omega
  · simp only [List.cons.sizeOf_spec]
    omega
  · simp only [List.cons.sizeOf_spec]
    omega
end

/-- `generate_tree(path, exclude_items, file_types)`: the header line
followed by the rendered entries of the root directory.  (If `path` named a
file, `os.listdir` would raise `NotADirectoryError` uncaught; `main` only
reaches this call for an existing path, and the claims under proof concern
directories, so the model returns no entries in that case.) -/
def generate_tree (path : String) (fs : FSTree) (exclude_items file_types : List String) :
    List String :=
  ("Directory structure of: " ++ path) ::
    (add_to_tree exclude_items file_types path "" fs).map TreeEnt.line

/-! The Combiner (src/combiner.py lines 140-190). -/

/-- The banner of 80 `#` characters between file sections. -/
def bar80 : String := String.mk (List.replicate 80 '#')

/-- The fixed header block of the combined document. -/
def headerLines (project_path : String) (exclude_items file_types : List String) :
    List String :=
  ["# Combined Project Files",
   "# Project Path: " ++ project_path,
   "# Generated by ProjectCombiner",
   "#",
   "# Excluded items (directories and files):",
   "# " ++ (if exclude_items.isEmpty then "None" else String.intercalate ", " exclude_items),
   "#",
   "# Included file types:",
   "# " ++ (if file_types.isEmpty then "All files" else String.intercalate ", " file_types)]

/-- The tree section embedded (as comments) when `include_tree` is true. -/
def treeSectionLines (tree_content : List String) : List String :=
  ["#", "# Project Structure:", "#"] ++
    tree_content.map (fun line => "# " ++ line) ++
    ["#", "# File Contents:", "#"]

/-- The per-file loop of `combine_files`: for each `(abs_path, rel_path)`
pair, on a successful read the banner, path header, banner, content and a
blank separator are appended; on a failed read a warning is recorded
(Python prints it) and the loop continues with the remaining files.
Returns (content lines, warnings in print order). -/
def fileBlocks (readFile : String → Except String String) :
    List (String × String) → List String × List String
  | [] => ([], [])
  | (abs_path, rel_path) :: rest =>
      let tail := fileBlocks readFile rest
      match readFile abs_path with
      | .ok content =>
          (bar80 :: ("# File: " ++ rel_path) :: bar80 :: content :: "\n" :: tail.1, tail.2)
      | .error e =>
          (tail.1, ("Warning: Error reading " ++ abs_path ++ ": " ++ e) :: tail.2)

/-- The list of lines `combine_files` joins, plus the warnings it prints. -/
def combine_files_core (file_paths : List (String × String)) (project_path : String)
    (tree_content : List String) (exclude_items file_types : List String)
    (include_tree : Bool) (readFile : String → Except String String) :
    List String × List String :=
  let blocks := fileBlocks readFile file_paths
  (headerLines project_path exclude_items file_types ++
     (if include_tree then treeSectionLines tree_content else []) ++ blocks.1,
   blocks.2)

/-- `combine_files(...)`: the combined document, `"\n".join` of its lines. -/
def combine_files (file_paths : List (String × String)) (project_path : String)
    (tree_content : List String) (exclude_items file_types : List String)
    (include_tree : Bool) (readFile : String → Except String String) : String :=
  String.intercalate "\n"
    (combine_files_core file_paths project_path tree_content exclude_items file_types
      include_tree readFile).1

/-! The entry point `main` (src/combiner.py lines 193-252). -/

/-- The parsed command line (`parse_args`).  Python turns `exclude` and
`file_types` into `set`s; the model keeps the lists: membership tests agree,
and the set's arbitrary iteration order in printed joins is modelled by the
list order. -/
structure Config where
  project_path : String
  output_file : String
  file_types : List String
  exclude : List String
  separate_tree : Bool

/-- The environment `main` runs in: `abspath` models `os.path.abspath`,
`pathExists` whether the absolute project path exists, `root` the directory
tree at that path, `readFile` the result of opening and reading a file by
absolute path, and `writeOk`/`writeErr` whether writing the combined output
file succeeds (the tree file's write is assumed to succeed: a failure there
would be an uncaught exception, outside every claim). -/
structure World where
  abspath : String → String
  pathExists : Bool
  root : FSTree
  readFile : String → Except String String
  writeOk : Bool
  writeErr : String

/-- What a run of `main` does: its exit code (`sys.exit(1)` or normal
termination), the lines printed, and the files written as
`(file name, content)` in write order. -/
structure MainOutcome where
  exitCode : Nat
  messages : List String
  written : List (String × String)

/-- Model of Python `str(bool)`. -/
def strOfBool (b : Bool) : String := if b then "True" else "False"

/-- Model of `output_file.rsplit(".", 1)[0]`: everything before the last dot,
or the whole string when it has no dot. -/
def rsplitStem (s : String) : String :=
  if s.data.contains '.' then
    String.mk (((s.data.reverse.dropWhile (fun c => c != '.')).drop 1).reverse)
  else s

/-- Model of `main`: configuration echo, existence check, tree generation,
optional separate tree file, scan, combine, output write — in the source's
order, with every printed line collected in `messages`. -/
def main_model (cfg : Config) (w : World) : MainOutcome :=
  let project_path := w.abspath cfg.project_path
  let configMsgs : List String :=
    ["\nConfiguration:",
     "Project path: " ++ project_path,
     "Output file: " ++ cfg.output_file,
     "File types: " ++
       (if cfg.file_types.isEmpty then "All files" else String.intercalate ", " cfg.file_types),
     "Excluded items: " ++ String.intercalate ", " cfg.exclude,
     "Separate tree file: " ++ strOfBool cfg.separate_tree ++ "\n"]
  if !w.pathExists then
    { exitCode := 1,
      messages := configMsgs ++ ["Error: Path " ++ project_path ++ " does not exist"],
      written := [] }
  else
    let tree_content := generate_tree project_path w.root cfg.exclude cfg.file_types
    let tree_file := rsplitStem cfg.output_file ++ "_tree.txt"
    let treeWrites : List (String × String) :=
      if cfg.separate_tree then [(tree_file, String.intercalate "\n" tree_content)] else []
    let treeMsgs : List String :=
      if cfg.separate_tree then ["Directory tree saved to: " ++ tree_file] else []
    let file_paths := scan_directory project_path w.root cfg.exclude cfg.file_types
    if file_paths.isEmpty then
      { exitCode := 1,
        messages := configMsgs ++ ["Generating directory tree..."] ++ treeMsgs ++
          ["Scanning for files...", "Warning: No matching files found!"],
        written := treeWrites }
    else
      let combined := combine_files_core file_paths project_path tree_content
        cfg.exclude cfg.file_types (!cfg.separate_tree) w.readFile
      if w.writeOk then
        { exitCode := 0,
          messages := configMsgs ++ ["Generating directory tree..."] ++ treeMsgs ++
            ["Scanning for files...", "Combining files..."] ++ combined.2 ++
            ["\nProcessed " ++ toString file_paths.length ++ " files",
             "Combined content saved to: " ++ cfg.output_file],
          written := treeWrites ++ [(cfg.output_file, String.intercalate "\n" combined.1)] }
      else
        { exitCode := 1,
          messages := configMsgs ++ ["Generating directory tree..."] ++ treeMsgs ++
            ["Scanning for files...", "Combining files..."] ++ combined.2 ++
            ["Error writing to " ++ cfg.output_file ++ ": " ++ w.writeErr],
          written := treeWrites }

/-! Helper facts about the string primitives. -/

theorem isSuffixOf_iff_exists {a b : List Char} :
    a.isSuffixOf b = true ↔ ∃ p, b = p ++ a := by
  show (a.reverse.isPrefixOf b.reverse) = true ↔ _
  rw [List.isPrefixOf_iff_prefix, List.reverse_prefix]
  constructor
  · rintro ⟨p, hp⟩
    exact ⟨p, hp.symm⟩
  · rintro ⟨p, hp⟩
    exact ⟨p, hp.symm⟩

theorem endswith_iff {s suf : String} :
    endswith s suf = true ↔ ∃ p, s.data = p ++ suf.data := by
  unfold endswith
  exact isSuffixOf_iff_exists

/-- C2: `is_included_file` returns true when the extension set is empty, and
otherwise returns true exactly when the filename ends with one of the
extensions as a literal, case-sensitive suffix; with whitelist `[".py"]` the
name `"run.py"` is included and `"run.pyc"` is excluded, and `"mycpp"`
matches the bare token `"cpp"`. -/
theorem C2_is_included_file_suffix :
    (∀ (name : String) (fts : List String),
        is_included_file name fts = true ↔
          (fts = [] ∨ ∃ ext ∈ fts, ∃ p, name.data = p ++ ext.data))
    ∧ is_included_file "run.py" [".py"] = true
    ∧ is_included_file "run.pyc" [".py"] = false
    ∧ is_included_file "mycpp" ["cpp"] = true := by
  refine ⟨?_, by decide, by decide, by decide⟩
  intro name fts
  unfold is_included_file
  cases fts with
  | nil => simp
  | cons f rest =>
    rw [if_neg (by simp), List.any_eq_true]
    constructor
    · rintro ⟨ext, hmem, hend⟩
      exact Or.inr ⟨ext, hmem, endswith_iff.mp hend⟩
    · rintro (h | ⟨ext, hmem, hsuf⟩)
      · exact absurd h (List.cons_ne_nil f rest)
      · exact ⟨ext, hmem, endswith_iff.mpr hsuf⟩

/-! Facts about the combiner loop. -/

theorem fileBlocks_append (readFile : String → Except String String)
    (xs ys : List (String × String)) :
    fileBlocks readFile (xs ++ ys)
      = ((fileBlocks readFile xs).1 ++ (fileBlocks readFile ys).1,
         (fileBlocks readFile xs).2 ++ (fileBlocks readFile ys).2) := by
  induction xs with
  | nil => simp [fileBlocks]
  | cons hd tl ih =>
    obtain ⟨a, r⟩ := hd
    simp only [List.cons_append, fileBlocks]
    cases readFile a <;> simp [ih]

/-- C4: when reading or decoding one collected file fails, `combine_files`
emits a warning for it, contributes no banner, header or content for it to
the document, and the remaining files are processed exactly as if the
failing file were absent from the list. -/
theorem C4_read_error_skips_file
    (readFile : String → Except String String)
    (xs ys : List (String × String)) (a r e : String)
    (project_path : String) (tree_content : List String)
    (exclude_items file_types : List String) (include_tree : Bool)
    (hfail : readFile a = .error e) :
    combine_files (xs ++ (a, r) :: ys) project_path tree_content exclude_items file_types
        include_tree readFile
      = combine_files (xs ++ ys) project_path tree_content exclude_items file_types
          include_tree readFile
    ∧ (fileBlocks readFile (xs ++ (a, r) :: ys)).2
      = (fileBlocks readFile xs).2 ++
          ("Warning: Error reading " ++ a ++ ": " ++ e) :: (fileBlocks readFile ys).2 := by
  have hsingle : fileBlocks readFile ((a, r) :: ys)
      = ((fileBlocks readFile ys).1,
         ("Warning: Error reading " ++ a ++ ": " ++ e) :: (fileBlocks readFile ys).2) := by
    simp [fileBlocks, hfail]
  constructor
  · simp [combine_files, combine_files_core, fileBlocks_append, hsingle]
  · simp [fileBlocks_append, hsingle]

/-- Concrete run of C4: a two-file list whose middle file fails to read. -/
theorem C4_read_error_skips_file_witness :
    (fun s => if s = "/p/bad" then Except.error "boom" else Except.ok "text") "/p/bad"
        = (Except.error "boom" : Except String String)
    ∧ (combine_files [("/p/a.py", "a.py"), ("/p/bad", "bad"), ("/p/b.py", "b.py")] "/p" []
          ["venv"] [".py"] true
          (fun s => if s = "/p/bad" then Except.error "boom" else Except.ok "text")
        = combine_files [("/p/a.py", "a.py"), ("/p/b.py", "b.py")] "/p" []
            ["venv"] [".py"] true
            (fun s => if s = "/p/bad" then Except.error "boom" else Except.ok "text")
      ∧ (fileBlocks
            (fun s => if s = "/p/bad" then Except.error "boom" else Except.ok "text")
            [("/p/a.py", "a.py"), ("/p/bad", "bad"), ("/p/b.py", "b.py")]).2
        = (fileBlocks
            (fun s => if s = "/p/bad" then Except.error "boom" else Except.ok "text")
            [("/p/a.py", "a.py")]).2 ++
            ("Warning: Error reading " ++ "/p/bad" ++ ": " ++ "boom") ::
              (fileBlocks
                (fun s => if s = "/p/bad" then Except.error "boom" else Except.ok "text")
                [("/p/b.py", "b.py")]).2) :=
  ⟨rfl,
   C4_read_error_skips_file
     (fun s => if s = "/p/bad" then Except.error "boom" else Except.ok "text")
     [("/p/a.py", "a.py")] [("/p/b.py", "b.py")] "/p/bad" "bad" "boom"
     "/p" [] ["venv"] [".py"] true rfl⟩

/-! Behaviour of `main` on a nonexistent project path. -/

/-- C5: when the project path does not exist, `main` exits with a nonzero
status and a descriptive message, and no output file (combined or separate
tree) has been created. -/
theorem C5_nonexistent_path_exits (cfg : Config) (w : World)
    (h : w.pathExists = false) :
    (main_model cfg w).exitCode = 1
    ∧ (main_model cfg w).written = []
    ∧ ("Error: Path " ++ w.abspath cfg.project_path ++ " does not exist")
        ∈ (main_model cfg w).messages := by
  simp [main_model, h]

/-- Concrete run of C5: a world whose project path is missing. -/
theorem C5_nonexistent_path_exits_witness :
    (World.mk id false (.dir "p" true []) (fun _ => .ok "") true "").pathExists = false
    ∧ ((main_model (Config.mk "/gone" "out.txt" [] ["venv"] false)
          (World.mk id false (.dir "p" true []) (fun _ => .ok "") true "")).exitCode = 1
      ∧ (main_model (Config.mk "/gone" "out.txt" [] ["venv"] false)
          (World.mk id false (.dir "p" true []) (fun _ => .ok "") true "")).written = []
      ∧ ("Error: Path " ++ id "/gone" ++ " does not exist")
          ∈ (main_model (Config.mk "/gone" "out.txt" [] ["venv"] false)
              (World.mk id false (.dir "p" true []) (fun _ => .ok "") true "")).messages) :=
  ⟨rfl, C5_nonexistent_path_exits _ _ rfl⟩

/-! Behaviour of `main` when no files match. -/

theorem dropWhile_dot {m : List Char} (h : '.' ∈ m) :
    ∃ t, m.dropWhile (fun c => c != '.') = '.' :: t := by
  induction m with
  | nil => cases h
  | cons c cs ih =>
    by_cases hc : c = '.'
    · subst hc
      exact ⟨cs, by simp [List.dropWhile_cons]⟩
    · have hmem : '.' ∈ cs := by
        cases h with
        | head => exact absurd rfl hc
        | tail _ h => exact h
      obtain ⟨t, ht⟩ := ih hmem
      refine ⟨t, ?_⟩
      simp only [List.dropWhile_cons]
      rw [if_pos (by simp [hc])]
      exact ht

/-- The separate tree file's name can never collide with the combined output
file's name. -/
theorem tree_file_ne_output (s : String) : rsplitStem s ++ "_tree.txt" ≠ s := by
  intro heq
  have hd : (rsplitStem s).data ++ "_tree.txt".data = s.data := by
    rw [← String.data_append, heq]
  by_cases h : s.data.contains '.'
  · have hmem : '.' ∈ s.data.reverse := by
      rw [List.mem_reverse]
      exact List.elem_iff.mp h
    obtain ⟨t, ht⟩ := dropWhile_dot hmem
    have hstem : (rsplitStem s).data = t.reverse := by
      simp only [rsplitStem, if_pos h, ht, List.drop_succ_cons, List.drop_zero]
    have hsplit : s.data
        = t.reverse ++ '.' :: (s.data.reverse.takeWhile (fun c => c != '.')).reverse := by
      conv_lhs => rw [← List.reverse_reverse s.data,
        ← List.takeWhile_append_dropWhile (p := fun c => c != '.') (l := s.data.reverse)]
      rw [ht, List.reverse_append, List.reverse_cons, List.append_assoc]
      simp
    rw [hstem, hsplit] at hd
    have := List.append_cancel_left hd
    exact absurd (List.head_eq_of_cons_eq this) (by decide)
  · rw [rsplitStem, if_neg h] at hd
    simp at hd

/-- C6: when the project path exists but the scan yields no matching file,
`main` prints the "no matching files" warning and exits with a nonzero
status, and the combined output file is not written. -/
theorem C6_no_matching_files_exits (cfg : Config) (w : World)
    (hex : w.pathExists = true)
    (hscan : scan_directory (w.abspath cfg.project_path) w.root cfg.exclude
      cfg.file_types = []) :
    (main_model cfg w).exitCode = 1
    ∧ "Warning: No matching files found!" ∈ (main_model cfg w).messages
    ∧ ∀ c, (cfg.output_file, c) ∉ (main_model cfg w).written := by
  refine ⟨?_, ?_, ?_⟩
  · simp [main_model, hex, hscan]
  · simp [main_model, hex, hscan]
  · intro c hc
    cases hst : cfg.separate_tree
    · simp [main_model, hex, hscan, hst] at hc
    · simp [main_model, hex, hscan, hst] at hc
      exact tree_file_ne_output cfg.output_file hc.1.symm

/-- Concrete run of C6: an existing but empty project directory. -/
theorem C6_no_matching_files_exits_witness :
    (World.mk id true (.dir "p" true []) (fun _ => .ok "") true "").pathExists = true
    ∧ scan_directory (id "/p") (World.mk id true (.dir "p" true []) (fun _ => .ok "") true "").root
        ["venv"] [".py"] = []
    ∧ ((main_model (Config.mk "/p" "out.txt" [".py"] ["venv"] true)
          (World.mk id true (.dir "p" true []) (fun _ => .ok "") true "")).exitCode = 1
      ∧ "Warning: No matching files found!"
          ∈ (main_model (Config.mk "/p" "out.txt" [".py"] ["venv"] true)
              (World.mk id true (.dir "p" true []) (fun _ => .ok "") true "")).messages
      ∧ ∀ c, ((Config.mk "/p" "out.txt" [".py"] ["venv"] true).output_file, c)
          ∉ (main_model (Config.mk "/p" "out.txt" [".py"] ["venv"] true)
              (World.mk id true (.dir "p" true []) (fun _ => .ok "") true "")).written) :=
  ⟨rfl, by decide, C6_no_matching_files_exits _ _ rfl (by decide)⟩

/-! The silently swallowed permission error of the tree renderer. -/

theorem renderEntries_unlistable_congr (excl fty : List String) (dp pfx n : String)
    (ch ch' : List FSTree) :
    ∀ pre post, renderEntries excl fty dp pfx (pre ++ FSTree.dir n false ch :: post)
      = renderEntries excl fty dp pfx (pre ++ FSTree.dir n false ch' :: post) := by
  intro pre
  induction pre with
  | nil =>
    intro post
    cases post with
    | nil => simp [renderEntries, add_to_tree, FSTree.isDir, FSTree.name]
    | cons q qs => simp [renderEntries, add_to_tree, FSTree.isDir, FSTree.name]
  | cons p pre ih =>
    intro post
    cases pre with
    | nil =>
      simp only [List.nil_append, List.cons_append]
      simp only [renderEntries]
      have := ih post
      simp only [List.nil_append] at this
      rw [this]
    | cons r rs =>
      simp only [List.cons_append]
      simp only [renderEntries]
      have := ih post
      simp only [List.cons_append] at this
      rw [this]

/-- C7: a directory whose listing raises `PermissionError` is silently
omitted by the tree renderer: no entry of its subtree is produced (the
renderer has no error or warning output at all in the model, mirroring the
bare `except PermissionError: return`), and the rendering of every other
entry is unchanged — the surrounding lines do not depend on the unreadable
directory's contents. -/
theorem C7_permission_error_silent :
    (∀ (excl fty : List String) (dp pfx n : String) (ch : List FSTree),
        add_to_tree excl fty dp pfx (FSTree.dir n false ch) = [])
    ∧ (∀ (excl fty : List String) (dp pfx n : String) (ch ch' : List FSTree)
        (pre post : List FSTree),
        renderEntries excl fty dp pfx (pre ++ FSTree.dir n false ch :: post)
          = renderEntries excl fty dp pfx (pre ++ FSTree.dir n false ch' :: post)) :=
  ⟨fun excl fty dp pfx n ch => by simp [add_to_tree],
   fun excl fty dp pfx n ch ch' pre post =>
     renderEntries_unlistable_congr excl fty dp pfx n ch ch' pre post⟩

/-! Segment structure of joined paths. -/

theorem splitChars_ne_nil (l : List Char) : splitChars l ≠ [] := by
  cases l with
  | nil => simp [splitChars]
  | cons c cs =>
    simp only [splitChars]
    cases h : splitChars cs with
    | nil => simp
    | cons s ss =>
      by_cases hc : c = '/' <;> simp [hc]

theorem splitChars_append_sep (xs ys : List Char) :
    splitChars (xs ++ '/' :: ys) = splitChars xs ++ splitChars ys := by
  induction xs with
  | nil =>
    simp only [List.nil_append, splitChars]
    cases h : splitChars ys with
    | nil => exact absurd h (splitChars_ne_nil ys)
    | cons s ss => simp
  | cons c cs ih =>
    cases hcs : splitChars cs with
    | nil => exact absurd hcs (splitChars_ne_nil cs)
    | cons s ss =>
      simp only [List.cons_append, splitChars, List.append_eq]
      rw [ih, hcs]
      by_cases hc : c = '/' <;> simp [hc]

theorem path_join_data (a b : String) :
    (path_join a b).data = a.data ++ '/' :: b.data := by
  simp [path_join, String.data_append]

theorem should_skip_path_iff {q : String} {excl : List String} :
    should_skip_path q excl = true
      ↔ ∃ part ∈ splitChars q.data, ∃ e ∈ excl, e.data = part := by
  simp [should_skip_path, List.any_eq_true]

/-- Splitting at the separator, a join's segments are the two sides'
segments; hence exclusion of a path propagates to everything joined below
it. -/
theorem should_skip_path_join {p : String} {excl : List String}
    (h : should_skip_path p excl = true) (s : String) :
    should_skip_path (p ++ "/" ++ s) excl = true := by
  rw [should_skip_path_iff] at h ⊢
  obtain ⟨part, hpart, e, he, hde⟩ := h
  refine ⟨part, ?_, e, he, hde⟩
  have : (p ++ "/" ++ s).data = p.data ++ '/' :: s.data := path_join_data p s
  rw [this, splitChars_append_sep]
  exact List.mem_append_left _ hpart

mutual
theorem walk_root_shape (path : String) (t : FSTree) :
    ∀ g ∈ walk path t, g.1 = path ∨ ∃ s, g.1 = path ++ "/" ++ s := by
  match t with
  | .file n c => intro g hg; simp [walk] at hg
  | .dir n false ch => intro g hg; simp [walk] at hg
  | .dir n true ch =>
    intro g hg
    rw [walk] at hg
    cases hg with
    | head => exact Or.inl rfl
    | tail _ hg => exact Or.inr (walkList_root_shape path ch g hg)

theorem walkList_root_shape (path : String) (cs : List FSTree) :
    ∀ g ∈ walkList path cs, ∃ s, g.1 = path ++ "/" ++ s := by
  match cs with
  | [] => intro g hg; simp [walkList] at hg
  | c :: cs =>
    intro g hg
    rw [walkList] at hg
    rcases List.mem_append.mp hg with hg | hg
    · by_cases hd : c.isDir
      · rw [if_pos hd] at hg
        rcases walk_root_shape (path_join path c.name) c g hg with h | ⟨s, hs⟩
        · exact ⟨c.name, h⟩
        · refine ⟨c.name ++ "/" ++ s, ?_⟩
          rw [hs]
          apply String.ext
          simp [path_join, String.data_append]
      · rw [if_neg hd] at hg
        cases hg
    · exact walkList_root_shape path cs g hg
end

theorem renderEntries_all_files (excl fty : List String) (dp pfx : String) :
    ∀ l : List FSTree, (∀ e ∈ l, e.isDir = false) →
      ∀ ent ∈ renderEntries excl fty dp pfx l, ent.isDir = false := by
  intro l
  induction l with
  | nil => intro _ ent hent; simp [renderEntries] at hent
  | cons e rest ih =>
    intro hl ent hent
    have he : e.isDir = false := hl e (List.mem_cons_self e rest)
    cases rest with
    | nil =>
      simp only [renderEntries, he, Bool.false_eq_true, if_false, List.mem_cons,
        List.not_mem_nil, or_false] at hent
      rw [hent]
    | cons e2 rest2 =>
      simp only [renderEntries, he, Bool.false_eq_true, if_false, List.nil_append,
        List.singleton_append, List.mem_cons] at hent
      rcases hent with hent | hent
      · rw [hent]
      · exact ih (fun x hx => hl x (List.mem_cons_of_mem e hx)) ent hent

/-- C10: when a path segment of the project root's own absolute path equals
an exclusion entry, every walked root is skipped — `scan_directory` returns
the empty list for every tree, including trees holding files that match the
filters — and the tree renderer prunes every subdirectory: no directory
entry appears anywhere in the rendered tree. -/
theorem C10_root_path_excluded (path : String) (excl fty : List String)
    (hroot : ∃ part ∈ splitChars path.data, ∃ e ∈ excl, e.data = part) :
    (∀ fs : FSTree, scan_directory path fs excl fty = [])
    ∧ (∀ fs : FSTree, ∀ ent ∈ add_to_tree excl fty path "" fs, ent.isDir = false) := by
  have hskip : should_skip_path path excl = true := should_skip_path_iff.mpr hroot
  constructor
  · intro fs
    have hpairs : scanPairs path fs excl fty = [] := by
      rw [scanPairs, List.flatMap_eq_nil_iff]
      intro g hg
      have : should_skip_path g.1 excl = true := by
        rcases walk_root_shape path fs g hg with h | ⟨s, hs⟩
        · rw [h]; exact hskip
        · rw [hs]; exact should_skip_path_join hskip s
      simp [this]
    rw [scan_directory, hpairs]
    rfl
  · intro fs ent hent
    match fs with
    | .file n c => simp [add_to_tree] at hent
    | .dir n false ch => simp [add_to_tree] at hent
    | .dir n true ch =>
      rw [add_to_tree] at hent
      refine renderEntries_all_files excl fty path "" _ ?_ ent hent
      intro e he
      have hkeep := List.of_mem_filter he
      by_contra hne
      have hd : e.isDir = true := by
        cases h : e.isDir
        · exact absurd h hne
        · rfl
      rw [keepEntry, if_pos hd] at hkeep
      have : should_skip_path (path_join path e.name) excl = true :=
        should_skip_path_join hskip e.name
      rw [this] at hkeep
      cases hkeep

/-- Concrete run of C10: the project root `/home/venv/proj` with exclusion
`venv`; even a matching `a.py` inside is never scanned and no subdirectory
is rendered. -/
theorem C10_root_path_excluded_witness :
    (∃ part ∈ splitChars ("/home/venv/proj" : String).data,
        ∃ e ∈ (["venv"] : List String), e.data = part)
    ∧ ((∀ fs : FSTree, scan_directory "/home/venv/proj" fs ["venv"] [".py"] = [])
      ∧ (∀ fs : FSTree, ∀ ent ∈ add_to_tree ["venv"] [".py"] "/home/venv/proj" "" fs,
          ent.isDir = false)) :=
  ⟨by decide, C10_root_path_excluded "/home/venv/proj" ["venv"] [".py"] (by decide)⟩

/-! The separate-tree mode. -/

/-- C8: with `--separate-tree`, once the project path exists the tree is
written to the sibling file named by replacing the output file's final
extension with `_tree.txt`, the tree's first line is
`Directory structure of: <path>`, and whenever the combined output file is
written its content is the header block followed directly by the file
blocks — no `Project Structure` section is embedded. -/
theorem C8_separate_tree_sibling_file (cfg : Config) (w : World)
    (hex : w.pathExists = true) (hst : cfg.separate_tree = true) :
    (rsplitStem cfg.output_file ++ "_tree.txt",
        String.intercalate "\n"
          (generate_tree (w.abspath cfg.project_path) w.root cfg.exclude cfg.file_types))
      ∈ (main_model cfg w).written
    ∧ (generate_tree (w.abspath cfg.project_path) w.root cfg.exclude cfg.file_types).head?
        = some ("Directory structure of: " ++ w.abspath cfg.project_path)
    ∧ ∀ c, (cfg.output_file, c) ∈ (main_model cfg w).written →
        c = String.intercalate "\n"
          (headerLines (w.abspath cfg.project_path) cfg.exclude cfg.file_types ++
            (fileBlocks w.readFile
              (scan_directory (w.abspath cfg.project_path) w.root cfg.exclude
                cfg.file_types)).1) := by
  refine ⟨?_, rfl, ?_⟩
  · by_cases hempty : (scan_directory (w.abspath cfg.project_path) w.root cfg.exclude
        cfg.file_types).isEmpty = true
    · simp [main_model, hex, hst, hempty]
    · cases hwr : w.writeOk
      · simp [main_model, hex, hst, hempty, hwr]
      · simp [main_model, hex, hst, hempty, hwr]
  · intro c hc
    by_cases hempty : (scan_directory (w.abspath cfg.project_path) w.root cfg.exclude
        cfg.file_types).isEmpty = true
    · simp [main_model, hex, hst, hempty] at hc
      exact absurd hc.1.symm (tree_file_ne_output cfg.output_file)
    · cases hwr : w.writeOk
      · simp [main_model, hex, hst, hempty, hwr] at hc
        exact absurd hc.1.symm (tree_file_ne_output cfg.output_file)
      · simp [main_model, hex, hst, hempty, hwr] at hc
        rcases hc with hc | hc
        · exact absurd hc.1.symm (tree_file_ne_output cfg.output_file)
        · rw [hc, combine_files_core]
          simp

/-- Concrete run of C8: a one-file project in separate-tree mode. -/
theorem C8_separate_tree_sibling_file_witness :
    (World.mk id true (.dir "p" true [.file "a.py" (.ok "pass")]) (fun _ => .ok "pass")
        true "").pathExists = true
    ∧ (Config.mk "/p" "out.txt" [".py"] ["venv"] true).separate_tree = true
    ∧ ((rsplitStem (Config.mk "/p" "out.txt" [".py"] ["venv"] true).output_file ++ "_tree.txt",
          String.intercalate "\n"
            (generate_tree (id "/p") (.dir "p" true [.file "a.py" (.ok "pass")])
              ["venv"] [".py"]))
        ∈ (main_model (Config.mk "/p" "out.txt" [".py"] ["venv"] true)
            (World.mk id true (.dir "p" true [.file "a.py" (.ok "pass")])
              (fun _ => .ok "pass") true "")).written
      ∧ (generate_tree (id "/p") (.dir "p" true [.file "a.py" (.ok "pass")])
            ["venv"] [".py"]).head?
          = some ("Directory structure of: " ++ id "/p")
      ∧ ∀ c, ((Config.mk "/p" "out.txt" [".py"] ["venv"] true).output_file, c)
            ∈ (main_model (Config.mk "/p" "out.txt" [".py"] ["venv"] true)
                (World.mk id true (.dir "p" true [.file "a.py" (.ok "pass")])
                  (fun _ => .ok "pass") true "")).written →
          c = String.intercalate "\n"
            (headerLines (id "/p") ["venv"] [".py"] ++
              ((fileBlocks (fun _ => (.ok "pass" : Except String String))
                (scan_directory (id "/p") (.dir "p" true [.file "a.py" (.ok "pass")])
                  ["venv"] [".py"])).1))) :=
  ⟨rfl, rfl,
   C8_separate_tree_sibling_file (Config.mk "/p" "out.txt" [".py"] ["venv"] true)
     (World.mk id true (.dir "p" true [.file "a.py" (.ok "pass")]) (fun _ => .ok "pass")
       true "") rfl rfl⟩

/-! Well-formed trees: what a real file system guarantees about names. -/

/-- A legal file-system entry name: nonempty and free of the separator. -/
def validName (s : String) : Bool := !s.data.isEmpty && !s.data.contains '/'

mutual
/-- Every name in the tree is a legal entry name. -/
def validNames : FSTree → Bool
  | .file n _ => validName n
  | .dir n _ ch => validName n && validNamesList ch

def validNamesList : List FSTree → Bool
  | [] => true
  | c :: cs => validNames c && validNamesList cs
end

theorem validNamesList_mem {ch : List FSTree} (h : validNamesList ch = true) :
    ∀ c ∈ ch, validNames c = true := by
  induction ch with
  | nil => intro c hc; cases hc
  | cons c cs ih =>
    rw [validNamesList, Bool.and_eq_true] at h
    intro d hd
    cases hd with
    | head => exact h.1
    | tail _ hd => exact ih h.2 d hd

theorem validNames_name {t : FSTree} (h : validNames t = true) :
    validName t.name = true := by
  cases t with
  | file n c => exact h
  | dir n b ch =>
    rw [validNames, Bool.and_eq_true] at h
    exact h.1

theorem validNames_children {n : String} {b : Bool} {ch : List FSTree}
    (h : validNames (.dir n b ch) = true) : validNamesList ch = true := by
  rw [validNames, Bool.and_eq_true] at h
  exact h.2

/-- A slash-free character list is a single segment. -/
theorem splitChars_no_slash {l : List Char} (h : ∀ c ∈ l, ¬ c = '/') :
    splitChars l = [l] := by
  induction l with
  | nil => rfl
  | cons c cs ih =>
    have hc : ¬ c = '/' := h c (List.mem_cons_self c cs)
    rw [splitChars, ih (fun d hd => h d (List.mem_cons_of_mem c hd))]
    simp [hc]

theorem validName_no_slash {s : String} (h : validName s = true) :
    ∀ c ∈ s.data, ¬ c = '/' := by
  rw [validName, Bool.and_eq_true] at h
  intro c hc he
  have := h.2
  rw [Bool.not_eq_eq_eq_not, Bool.not_true] at this
  have hmem : s.data.contains '/' = true := List.elem_iff.mpr (he ▸ hc)
  rw [this] at hmem
  cases hmem

theorem validName_split {s : String} (h : validName s = true) :
    splitChars s.data = [s.data] :=
  splitChars_no_slash (validName_no_slash h)

/-! Characterizations of the skip predicates when they return false. -/

theorem should_skip_path_false_iff {q : String} {excl : List String} :
    should_skip_path q excl = false
      ↔ ∀ part ∈ splitChars q.data, ∀ e ∈ excl, e.data ≠ part := by
  rw [Bool.eq_false_iff, Ne, should_skip_path_iff]
  push_neg
  constructor
  · intro h part hpart e he hde
    exact h part hpart e he hde
  · intro h part hpart e he hde
    exact h part hpart e he hde

theorem should_skip_file_false_iff {f : String} {excl : List String} :
    should_skip_file f excl = false ↔ ∀ e ∈ excl, e.data ≠ f.data := by
  rw [Bool.eq_false_iff, Ne, should_skip_file]
  simp [List.any_eq_true]

/-! Facts about `relpath` and joined paths. -/

theorem relpath_join (base r : String) : relpath (base ++ "/" ++ r) base = r := by
  have hdata : (base ++ "/" ++ r).data = (base.data ++ ['/']) ++ r.data := by
    simp [String.data_append]
  have hlen : (base.data ++ ['/']).length = base.data.length + 1 := by simp
  rw [relpath, hdata, ← hlen, List.drop_left]

theorem join_assoc (a s f : String) :
    (a ++ "/" ++ s) ++ "/" ++ f = a ++ "/" ++ (s ++ "/" ++ f) := by
  apply String.ext
  simp [String.data_append]

/-! File names produced by the walk are names of files of the tree. -/

theorem fileNameOf_valid {c : FSTree} {f : String} (hv : validNames c = true)
    (hf : fileNameOf c = some f) : validName f = true := by
  cases c with
  | file n co =>
    rw [fileNameOf, Option.some.injEq] at hf
    rw [← hf]
    exact hv
  | dir n b ch => cases hf

mutual
theorem walk_files_valid (path : String) (t : FSTree) (hv : validNames t = true) :
    ∀ g ∈ walk path t, ∀ f ∈ g.2, validName f = true := by
  match t with
  | .file n c => intro g hg; simp [walk] at hg
  | .dir n false ch => intro g hg; simp [walk] at hg
  | .dir n true ch =>
    intro g hg
    rw [walk] at hg
    cases hg with
    | head =>
      intro f hf
      rcases List.mem_filterMap.mp hf with ⟨c, hc, hcf⟩
      exact fileNameOf_valid (validNamesList_mem (validNames_children hv) c hc) hcf
    | tail _ hg => exact walkList_files_valid path ch (validNames_children hv) g hg

theorem walkList_files_valid (path : String) (cs : List FSTree)
    (hv : validNamesList cs = true) :
    ∀ g ∈ walkList path cs, ∀ f ∈ g.2, validName f = true := by
  match cs with
  | [] => intro g hg; simp [walkList] at hg
  | c :: cs =>
    intro g hg
    rw [walkList] at hg
    rw [validNamesList, Bool.and_eq_true] at hv
    rcases List.mem_append.mp hg with hg | hg
    · by_cases hd : c.isDir
      · rw [if_pos hd] at hg
        exact walk_files_valid (path_join path c.name) c hv.1 g hg
      · rw [if_neg hd] at hg
        cases hg
    · exact walkList_files_valid path cs hv.2 g hg
end

/-! Membership in the scan result. -/

theorem mem_scanPairs {path : String} {t : FSTree} {excl fty : List String}
    {pr : String × String} (h : pr ∈ scanPairs path t excl fty) :
    ∃ g ∈ walk path t, should_skip_path g.1 excl = false ∧
      ∃ f ∈ g.2, should_skip_file f excl = false ∧ is_included_file f fty = true ∧
        pr = (path_join g.1 f, relpath (path_join g.1 f) path) := by
  rw [scanPairs] at h
  rcases List.mem_flatMap.mp h with ⟨g, hg, hpr⟩
  by_cases hskip : should_skip_path g.1 excl = true
  · rw [if_pos hskip] at hpr
    cases hpr
  · rw [if_neg hskip] at hpr
    rcases List.mem_filterMap.mp hpr with ⟨f, hf, hff⟩
    by_cases hc : (!should_skip_file f excl && is_included_file f fty) = true
    · rw [if_pos hc] at hff
      rw [Bool.and_eq_true, Bool.not_eq_true'] at hc
      refine ⟨g, hg, Bool.not_eq_true _ ▸ Bool.eq_false_iff.mpr hskip, f, hf, hc.1, hc.2, ?_⟩
      exact (Option.some.injEq _ _ ▸ hff).symm
    · rw [if_neg hc] at hff
      cases hff

/-- The scan half of C1: every relative path returned by `scan_directory`
has no segment equal to an exclusion entry. -/
theorem scan_clean (path : String) (t : FSTree) (excl fty : List String)
    (hv : validNames t = true) :
    ∀ pr ∈ scan_directory path t excl fty,
      ∀ part ∈ splitChars pr.2.data, ∀ e ∈ excl, e.data ≠ part := by
  intro pr hpr
  have hmem : pr ∈ scanPairs path t excl fty :=
    ((List.perm_insertionSort _ _).mem_iff).mp hpr
  rcases mem_scanPairs hmem with ⟨g, hg, hnskip, f, hf, hnfile, hinc, hpr_eq⟩
  have hvf : validName f = true := walk_files_valid path t hv g hg f hf
  have hnamecl := should_skip_file_false_iff.mp hnfile
  have hpathcl := should_skip_path_false_iff.mp hnskip
  rcases walk_root_shape path t g hg with hroot | ⟨s, hroot⟩
  · have h2 : pr.2 = f := by
      rw [hpr_eq]
      show relpath (path_join g.1 f) path = f
      rw [hroot]
      exact relpath_join path f
    rw [h2, validName_split hvf]
    intro part hpart e he
    rw [List.mem_singleton] at hpart
    subst hpart
    exact hnamecl e he
  · have h2 : pr.2 = s ++ "/" ++ f := by
      rw [hpr_eq]
      show relpath (path_join g.1 f) path = s ++ "/" ++ f
      rw [hroot]
      show relpath ((path ++ "/" ++ s) ++ "/" ++ f) path = s ++ "/" ++ f
      rw [join_assoc]
      exact relpath_join path (s ++ "/" ++ f)
    rw [h2]
    have hsegs : splitChars (s ++ "/" ++ f).data = splitChars s.data ++ [f.data] := by
      rw [show (s ++ "/" ++ f).data = s.data ++ '/' :: f.data from path_join_data s f,
        splitChars_append_sep, validName_split hvf]
    rw [hsegs]
    intro part hpart e he hde
    rcases List.mem_append.mp hpart with hpart | hpart
    · have hmem2 : part ∈ splitChars g.1.data := by
        rw [hroot, show (path ++ "/" ++ s).data = path.data ++ '/' :: s.data from
          path_join_data path s, splitChars_append_sep]
        exact List.mem_append_right _ hpart
      exact hpathcl part hmem2 e he hde
    · rw [List.mem_singleton] at hpart
      subst hpart
      exact hnamecl e he hde

/-! The tree half of C1: no excluded segment below any rendered file. -/

/-- The path `q` has no segment equal to an exclusion entry. -/
def cleanSegs (q : String) (excl : List String) : Prop :=
  ∀ part ∈ splitChars q.data, ∀ e ∈ excl, e.data ≠ part

theorem keepEntry_file {excl fty : List String} {dp : String} {e : FSTree}
    (hd : e.isDir = false) (hk : keepEntry excl fty dp e = true) :
    should_skip_file e.name excl = false ∧ is_included_file e.name fty = true := by
  rw [keepEntry, if_neg (by simp [hd])] at hk
  rw [Bool.and_eq_true, Bool.not_eq_true'] at hk
  exact hk

theorem keepEntry_dir {excl fty : List String} {dp : String} {e : FSTree}
    (hd : e.isDir = true) (hk : keepEntry excl fty dp e = true) :
    should_skip_path (path_join dp e.name) excl = false := by
  rw [keepEntry, if_pos hd, Bool.not_eq_true'] at hk
  exact hk

theorem name_clean_of_dir_kept {dp : String} {excl : List String} {nm : String}
    (hvn : validName nm = true)
    (hns : should_skip_path (path_join dp nm) excl = false) :
    ∀ e ∈ excl, e.data ≠ nm.data := by
  have h := should_skip_path_false_iff.mp hns
  intro e he
  refine h nm.data ?_ e he
  rw [path_join_data, splitChars_append_sep, validName_split hvn]
  exact List.mem_append_right _ (List.mem_singleton.mpr rfl)

theorem cleanSegs_single {nm : String} {excl : List String} (hvn : validName nm = true)
    (hnm : ∀ e ∈ excl, e.data ≠ nm.data) : cleanSegs nm excl := by
  intro part hpart e he
  rw [validName_split hvn, List.mem_singleton] at hpart
  subst hpart
  exact hnm e he

theorem cleanSegs_join {s nm : String} {excl : List String} (hs : cleanSegs s excl)
    (hvn : validName nm = true) (hnm : ∀ e ∈ excl, e.data ≠ nm.data) :
    cleanSegs (s ++ "/" ++ nm) excl := by
  intro part hpart e he
  rw [show (s ++ "/" ++ nm).data = s.data ++ '/' :: nm.data from path_join_data s nm,
    splitChars_append_sep, validName_split hvn] at hpart
  rcases List.mem_append.mp hpart with hp | hp
  · exact hs part hp e he
  · rw [List.mem_singleton] at hp
    subst hp
    exact hnm e he

/-- Descending into a kept directory preserves the invariant that the
current directory path is the project path extended by a clean suffix. -/
theorem inv_step {path dp : String} {excl : List String} {e : FSTree}
    (hinv : dp = path ∨ ∃ s, dp = path ++ "/" ++ s ∧ cleanSegs s excl)
    (hvn : validName e.name = true)
    (hns : should_skip_path (path_join dp e.name) excl = false) :
    ∃ s', path_join dp e.name = path ++ "/" ++ s' ∧ cleanSegs s' excl := by
  have hnm := name_clean_of_dir_kept hvn hns
  rcases hinv with h | ⟨s, hdp, hs⟩
  · exact ⟨e.name, by rw [h]; rfl, cleanSegs_single hvn hnm⟩
  · refine ⟨s ++ "/" ++ e.name, ?_, cleanSegs_join hs hvn hnm⟩
    rw [hdp]
    exact join_assoc path s e.name

theorem head_entry_clean {path dp : String} {excl fty : List String} {e : FSTree}
    (hv : validNames e = true) (hk : keepEntry excl fty dp e = true)
    (hinv : dp = path ∨ ∃ s, dp = path ++ "/" ++ s ∧ cleanSegs s excl)
    (hdir : e.isDir = false) :
    cleanSegs (relpath (path_join dp e.name) path) excl := by
  have hvn := validNames_name hv
  have hfk := keepEntry_file hdir hk
  have hnm : ∀ x ∈ excl, x.data ≠ e.name.data := should_skip_file_false_iff.mp hfk.1
  rcases hinv with h | ⟨s, hdp, hs⟩
  · rw [h, show path_join path e.name = path ++ "/" ++ e.name from rfl, relpath_join]
    exact cleanSegs_single hvn hnm
  · rw [hdp, show path_join (path ++ "/" ++ s) e.name
        = (path ++ "/" ++ s) ++ "/" ++ e.name from rfl, join_assoc, relpath_join]
    exact cleanSegs_join hs hvn hnm

mutual
theorem add_to_tree_clean (excl fty : List String) (path dp pfx : String) (t : FSTree)
    (hv : validNames t = true)
    (hinv : dp = path ∨ ∃ s, dp = path ++ "/" ++ s ∧ cleanSegs s excl) :
    ∀ ent ∈ add_to_tree excl fty dp pfx t, ent.isDir = false →
      cleanSegs (relpath ent.full path) excl := by
  match t with
  | .file n c =>
    intro ent hent
    simp [add_to_tree] at hent
  | .dir n false ch =>
    intro ent hent
    simp [add_to_tree] at hent
  | .dir n true ch =>
    intro ent hent hdir
    rw [add_to_tree] at hent
    refine renderEntries_clean excl fty path dp pfx _ ?_ ?_ hinv ent hent hdir
    · intro e he
      have hmem : e ∈ sortedEntries ch := List.mem_of_mem_filter he
      have he2 : e ∈ ch := ((List.perm_insertionSort _ _).mem_iff).mp hmem
      exact validNamesList_mem (validNames_children hv) e he2
    · intro e he
      exact List.of_mem_filter he
termination_by sizeOf t
decreasing_by
  have h1 := sizeOf_filter_le (keepEntry excl fty dp) (sortedEntries ch)
  have h2 := sizeOf_insertionSort
    (fun a b : FSTree => (strLt a.name b.name || strEq a.name b.name) = true) ch
  simp only [sortedEntries] at h1 ⊢
  simp only [FSTree.dir.sizeOf_spec]
  omega

theorem renderEntries_clean (excl fty : List String) (path dp pfx : String)
    (l : List FSTree)
    (hval : ∀ e ∈ l, validNames e = true)
    (hkeep : ∀ e ∈ l, keepEntry excl fty dp e = true)
    (hinv : dp = path ∨ ∃ s, dp = path ++ "/" ++ s ∧ cleanSegs s excl) :
    ∀ ent ∈ renderEntries excl fty dp pfx l, ent.isDir = false →
      cleanSegs (relpath ent.full path) excl := by
  match l with
  | [] =>
    intro ent hent
    simp [renderEntries] at hent
  | [e] =>
    intro ent hent hdir
    rw [renderEntries] at hent
    have hve := hval e (List.mem_singleton.mpr rfl)
    have hke := hkeep e (List.mem_singleton.mpr rfl)
    cases hent with
    | head => exact head_entry_clean hve hke hinv hdir
    | tail _ hent =>
      by_cases hd : e.isDir = true
      · rw [if_pos hd] at hent
        rcases inv_step hinv (validNames_name hve) (keepEntry_dir hd hke) with
          ⟨s', hjoin, hs'⟩
        exact add_to_tree_clean excl fty path (path_join dp e.name) (pfx ++ "    ") e
          hve (Or.inr ⟨s', hjoin, hs'⟩) ent hent hdir
      · rw [if_neg hd] at hent
        cases hent
  | e :: e2 :: rest =>
    intro ent hent hdir
    rw [renderEntries] at hent
    have hve := hval e (List.mem_cons_self e (e2 :: rest))
    have hke := hkeep e (List.mem_cons_self e (e2 :: rest))
    rcases List.mem_append.mp hent with hent | hent
    · cases hent with
      | head => exact head_entry_clean hve hke hinv hdir
      | tail _ hent =>
        by_cases hd : e.isDir = true
        · rw [if_pos hd] at hent
          rcases inv_step hinv (validNames_name hve) (keepEntry_dir hd hke) with
            ⟨s', hjoin, hs'⟩
          exact add_to_tree_clean excl fty path (path_join dp e.name) (pfx ++ "│   ") e
            hve (Or.inr ⟨s', hjoin, hs'⟩) ent hent hdir
        · rw [if_neg hd] at hent
          cases hent
    · exact renderEntries_clean excl fty path dp pfx (e2 :: rest)
        (fun x hx => hval x (List.mem_cons_of_mem e hx))
        (fun x hx => hkeep x (List.mem_cons_of_mem e hx)) hinv ent hent hdir
termination_by sizeOf l
decreasing_by
  · simp only [List.cons.sizeOf_spec, List.nil.sizeOf_spec]
    omega
  · simp only [List.cons.sizeOf_spec]
    omega
  · simp only [List.cons.sizeOf_spec]
    omega
end

/-- C1: a file whose relative path has a segment equal to an exclusion entry
appears neither in the scan result nor among the rendered tree entries —
equivalently, every file the scan returns and every file entry the tree
renders has an exclusion-free relative path, whatever the extension filter.
(The hypothesis says the tree's entry names are legal file-system names:
nonempty and free of the path separator.) -/
theorem C1_excluded_segment_never_appears (path : String) (t : FSTree)
    (excl fty : List String) (hv : validNames t = true) :
    (∀ pr ∈ scan_directory path t excl fty,
        ∀ part ∈ splitChars pr.2.data, ∀ e ∈ excl, e.data ≠ part)
    ∧ (∀ ent ∈ add_to_tree excl fty path "" t, ent.isDir = false →
        ∀ part ∈ splitChars (relpath ent.full path).data, ∀ e ∈ excl, e.data ≠ part) :=
  ⟨scan_clean path t excl fty hv,
   fun ent hent hdir =>
     add_to_tree_clean excl fty path path "" t hv (Or.inl rfl) ent hent hdir⟩

/-- Concrete run of C1: a tree with an excluded `venv` directory holding a
matching file. -/
theorem C1_excluded_segment_never_appears_witness :
    validNames
        (.dir "p" true
          [.file "a.py" (.ok "A"),
           .dir "venv" true [.file "hidden.py" (.ok "H")]]) = true
    ∧ ((∀ pr ∈ scan_directory "/p"
            (.dir "p" true
              [.file "a.py" (.ok "A"),
               .dir "venv" true [.file "hidden.py" (.ok "H")]]) ["venv"] [".py"],
          ∀ part ∈ splitChars pr.2.data, ∀ e ∈ (["venv"] : List String), e.data ≠ part)
      ∧ (∀ ent ∈ add_to_tree ["venv"] [".py"] "/p" ""
            (.dir "p" true
              [.file "a.py" (.ok "A"),
               .dir "venv" true [.file "hidden.py" (.ok "H")]]),
          ent.isDir = false →
            ∀ part ∈ splitChars (relpath ent.full "/p").data,
              ∀ e ∈ (["venv"] : List String), e.data ≠ part)) :=
  ⟨by decide,
   C1_excluded_segment_never_appears "/p"
     (.dir "p" true
       [.file "a.py" (.ok "A"),
        .dir "venv" true [.file "hidden.py" (.ok "H")]]) ["venv"] [".py"] (by decide)⟩

/-! Order-theoretic facts about the embedded Python comparisons. -/

theorem lexLt_irrefl : ∀ l : List Char, lexLt l l = false := by
  intro l
  induction l with
  | nil => rfl
  | cons c cs ih => simp [lexLt, lt_irrefl, ih]

theorem lexLt_trans : ∀ {a b c : List Char},
    lexLt a b = true → lexLt b c = true → lexLt a c = true := by
  intro a
  induction a with
  | nil =>
    intro b c hab hbc
    cases b with
    | nil => cases hab
    | cons y ys =>
      cases c with
      | nil => cases hbc
      | cons z zs => rfl
  | cons x xs ih =>
    intro b c hab hbc
    cases b with
    | nil => cases hab
    | cons y ys =>
      cases c with
      | nil => cases hbc
      | cons z zs =>
        rw [lexLt] at hab hbc ⊢
        by_cases hxy : x < y
        · by_cases hyz : y < z
          · rw [if_pos (lt_trans hxy hyz)]
          · rw [if_pos hxy] at hab
            rw [if_neg hyz] at hbc
            by_cases hzy : z < y
            · rw [if_pos hzy] at hbc
              cases hbc
            · have hyz2 : y = z := le_antisymm (not_lt.mp hzy) (not_lt.mp hyz)
              rw [if_pos (hyz2 ▸ hxy)]
        · rw [if_neg hxy] at hab
          by_cases hyx : y < x
          · rw [if_pos hyx] at hab
            cases hab
          · have hxy2 : x = y := le_antisymm (not_lt.mp hyx) (not_lt.mp hxy)
            subst hxy2
            by_cases hxz : x < z
            · rw [if_pos hxz]
            · rw [if_neg hxz] at hbc ⊢
              by_cases hzx : z < x
              · rw [if_pos hzx] at hbc
                cases hbc
              · rw [if_neg hzx] at hbc ⊢
                rw [if_neg (lt_irrefl x)] at hab
                exact ih hab hbc

theorem lexLt_asymm : ∀ {a b : List Char},
    lexLt a b = true → lexLt b a = false := by
  intro a
  induction a with
  | nil =>
    intro b hab
    cases b with
    | nil => cases hab
    | cons y ys => rfl
  | cons x xs ih =>
    intro b hab
    cases b with
    | nil => cases hab
    | cons y ys =>
      rw [lexLt] at hab ⊢
      by_cases hxy : x < y
      · rw [if_neg (lt_asymm hxy), if_pos hxy]
      · rw [if_neg hxy] at hab
        by_cases hyx : y < x
        · rw [if_pos hyx] at hab
          cases hab
        · rw [if_neg hyx, if_neg hxy]
          rw [if_neg hyx] at hab
          exact ih hab

theorem lexLt_trichotomy : ∀ a b : List Char,
    lexLt a b = true ∨ a = b ∨ lexLt b a = true := by
  intro a
  induction a with
  | nil =>
    intro b
    cases b with
    | nil => exact Or.inr (Or.inl rfl)
    | cons y ys => exact Or.inl rfl
  | cons x xs ih =>
    intro b
    cases b with
    | nil => exact Or.inr (Or.inr rfl)
    | cons y ys =>
      rcases lt_trichotomy x y with hxy | hxy | hxy
      · exact Or.inl (by rw [lexLt, if_pos hxy])
      · subst hxy
        rcases ih ys with h | h | h
        · exact Or.inl (by rw [lexLt, if_neg (lt_irrefl x), if_neg (lt_irrefl x), h])
        · exact Or.inr (Or.inl (by rw [h]))
        · exact Or.inr (Or.inr (by rw [lexLt, if_neg (lt_irrefl x), if_neg (lt_irrefl x), h]))
      · exact Or.inr (Or.inr (by rw [lexLt, if_pos hxy]))

theorem data_eq_iff {a b : String} : a.data = b.data ↔ a = b :=
  ⟨fun h => by cases a; cases b; exact congrArg String.mk h, fun h => h ▸ rfl⟩

theorem tupleLe_iff {a b : String × String} :
    tupleLe a b = true
      ↔ lexLt a.1.data b.1.data = true
        ∨ (a.1 = b.1 ∧ (lexLt a.2.data b.2.data = true ∨ a.2 = b.2)) := by
  simp [tupleLe, strLt, strEq, Bool.or_eq_true, Bool.and_eq_true, data_eq_iff]

theorem tupleLe_trans_thm : ∀ a b c : String × String,
    tupleLe a b = true → tupleLe b c = true → tupleLe a c = true := by
  intro a b c hab hbc
  rw [tupleLe_iff] at hab hbc ⊢
  rcases hab with hab | ⟨hab1, hab2⟩
  · rcases hbc with hbc | ⟨hbc1, hbc2⟩
    · exact Or.inl (lexLt_trans hab hbc)
    · exact Or.inl (hbc1 ▸ hab)
  · rcases hbc with hbc | ⟨hbc1, hbc2⟩
    · exact Or.inl (hab1 ▸ hbc)
    · refine Or.inr ⟨hab1.trans hbc1, ?_⟩
      rcases hab2 with h2 | h2
      · rcases hbc2 with h3 | h3
        · exact Or.inl (lexLt_trans h2 h3)
        · exact Or.inl (h3 ▸ h2)
      · rcases hbc2 with h3 | h3
        · exact Or.inl (h2 ▸ h3)
        · exact Or.inr (h2.trans h3)

theorem tupleLe_total_thm : ∀ a b : String × String,
    tupleLe a b = true ∨ tupleLe b a = true := by
  intro a b
  rcases lexLt_trichotomy a.1.data b.1.data with h | h | h
  · exact Or.inl (tupleLe_iff.mpr (Or.inl h))
  · have h1 : a.1 = b.1 := data_eq_iff.mp h
    rcases lexLt_trichotomy a.2.data b.2.data with h2 | h2 | h2
    · exact Or.inl (tupleLe_iff.mpr (Or.inr ⟨h1, Or.inl h2⟩))
    · exact Or.inl (tupleLe_iff.mpr (Or.inr ⟨h1, Or.inr (data_eq_iff.mp h2)⟩))
    · exact Or.inr (tupleLe_iff.mpr (Or.inr ⟨h1.symm, Or.inl h2⟩))
  · exact Or.inr (tupleLe_iff.mpr (Or.inl h))

theorem tupleLe_antisymm_thm : ∀ a b : String × String,
    tupleLe a b = true → tupleLe b a = true → a = b := by
  intro a b hab hba
  rw [tupleLe_iff] at hab hba
  rcases hab with hab | ⟨hab1, hab2⟩
  · rcases hba with hba | ⟨hba1, hba2⟩
    · rw [lexLt_asymm hab] at hba
      cases hba
    · rw [hba1] at hab
      rw [lexLt_irrefl] at hab
      cases hab
  · rcases hba with hba | ⟨hba1, hba2⟩
    · rw [hab1] at hba
      rw [lexLt_irrefl] at hba
      cases hba
    · have h2 : a.2 = b.2 := by
        rcases hab2 with h2 | h2
        · rcases hba2 with h3 | h3
          · rw [lexLt_asymm h2] at h3
            cases h3
          · exact h3.symm
        · exact h2
      exact Prod.ext hab1 h2

instance : IsTrans (String × String) (fun a b => tupleLe a b = true) :=
  ⟨tupleLe_trans_thm⟩

instance : IsTotal (String × String) (fun a b => tupleLe a b = true) :=
  ⟨tupleLe_total_thm⟩

instance : IsAntisymm (String × String) (fun a b => tupleLe a b = true) :=
  ⟨tupleLe_antisymm_thm⟩

/-! Determinism of the scan: the walk's enumeration order is irrelevant. -/

mutual
/-- Two trees hold the same entries — same file names and contents, same
directory names and listability — with children lists possibly enumerated
in different orders at every level.  This is exactly what varies when
`os.walk`/`os.scandir` return directory entries in an arbitrary order. -/
inductive TreeEquiv : FSTree → FSTree → Prop where
  | file (n : String) (c : Except String String) : TreeEquiv (.file n c) (.file n c)
  | dir (n : String) (b : Bool) {ch ch' : List FSTree} :
      ChildrenPerm ch ch' → TreeEquiv (.dir n b ch) (.dir n b ch')

/-- Permutation of children lists, elementwise up to `TreeEquiv`. -/
inductive ChildrenPerm : List FSTree → List FSTree → Prop where
  | nil : ChildrenPerm [] []
  | cons {a b : FSTree} {l₁ l₂ : List FSTree} :
      TreeEquiv a b → ChildrenPerm l₁ l₂ → ChildrenPerm (a :: l₁) (b :: l₂)
  | swap {a a' b b' : FSTree} {l₁ l₂ : List FSTree} :
      TreeEquiv a a' → TreeEquiv b b' → ChildrenPerm l₁ l₂ →
      ChildrenPerm (a :: b :: l₁) (b' :: a' :: l₂)
  | trans {l₁ l₂ l₃ : List FSTree} :
      ChildrenPerm l₁ l₂ → ChildrenPerm l₂ l₃ → ChildrenPerm l₁ l₃
end

theorem treeEquiv_name {a b : FSTree} (h : TreeEquiv a b) : a.name = b.name := by
  cases h <;> rfl

theorem treeEquiv_isDir {a b : FSTree} (h : TreeEquiv a b) : a.isDir = b.isDir := by
  cases h <;> rfl

theorem treeEquiv_fileNameOf {a b : FSTree} (h : TreeEquiv a b) :
    fileNameOf a = fileNameOf b := by
  cases h <;> rfl

/-- The per-root contribution of `scan_directory`'s loop body. -/
def scanGroup (path : String) (exclude_items file_types : List String)
    (rootFiles : String × List String) : List (String × String) :=
  if should_skip_path rootFiles.1 exclude_items then []
  else rootFiles.2.filterMap (fun file =>
    if !should_skip_file file exclude_items && is_included_file file file_types then
      some (path_join rootFiles.1 file, relpath (path_join rootFiles.1 file) path)
    else none)

theorem scanPairs_eq_flatMap (path : String) (fs : FSTree)
    (exclude_items file_types : List String) :
    scanPairs path fs exclude_items file_types
      = (walk path fs).flatMap (scanGroup path exclude_items file_types) := rfl

theorem scanGroup_perm_files (path0 : String) (excl fty : List String) (p : String)
    {fl fl' : List String} (h : fl.Perm fl') :
    (scanGroup path0 excl fty (p, fl)).Perm (scanGroup path0 excl fty (p, fl')) := by
  rw [scanGroup, scanGroup]
  by_cases hskip : should_skip_path p excl = true
  · rw [if_pos hskip, if_pos hskip]
  · rw [if_neg hskip, if_neg hskip]
    exact h.filterMap _

theorem block_perm (path0 : String) (excl fty : List String) {c c' : FSTree}
    (hcc : TreeEquiv c c')
    (ih : ∀ p, ((walk p c).flatMap (scanGroup path0 excl fty)).Perm
      ((walk p c').flatMap (scanGroup path0 excl fty))) (path : String) :
    ((if c.isDir then walk (path_join path c.name) c else []).flatMap
        (scanGroup path0 excl fty)).Perm
      ((if c'.isDir then walk (path_join path c'.name) c' else []).flatMap
        (scanGroup path0 excl fty)) := by
  rw [← treeEquiv_isDir hcc, ← treeEquiv_name hcc]
  cases hd : c.isDir
  · simp
  · simp only [if_pos rfl]
    exact ih (path_join path c.name)

/-- Both halves of the permutation argument, proved with the mutual
recursor of `TreeEquiv`/`ChildrenPerm`. -/
theorem childrenPerm_scan (path0 : String) (excl fty : List String) :
    ∀ {cs cs' : List FSTree}, ChildrenPerm cs cs' →
      (∀ p, ((walkList p cs).flatMap (scanGroup path0 excl fty)).Perm
        ((walkList p cs').flatMap (scanGroup path0 excl fty)))
      ∧ (cs.filterMap fileNameOf).Perm (cs'.filterMap fileNameOf) :=
  @ChildrenPerm.rec
    (fun t t' _ => ∀ p, ((walk p t).flatMap (scanGroup path0 excl fty)).Perm
      ((walk p t').flatMap (scanGroup path0 excl fty)))
    (fun cs cs' _ =>
      (∀ p, ((walkList p cs).flatMap (scanGroup path0 excl fty)).Perm
        ((walkList p cs').flatMap (scanGroup path0 excl fty)))
      ∧ (cs.filterMap fileNameOf).Perm (cs'.filterMap fileNameOf))
    (by intro n c p; simp [walk])
    (by
      intro n b ch ch' hch ih p
      cases b
      · simp [walk]
      · simp only [walk, List.flatMap_cons]
        exact (scanGroup_perm_files path0 excl fty p ih.2).append (ih.1 p))
    (⟨fun p => by simp [walkList], List.Perm.refl []⟩)
    (by
      intro a b l₁ l₂ ht hl iht ihl
      refine ⟨fun p => ?_, ?_⟩
      · simp only [walkList, List.flatMap_append]
        exact (block_perm path0 excl fty ht iht p).append (ihl.1 p)
      · simp only [List.filterMap_cons, ← treeEquiv_fileNameOf ht]
        cases fileNameOf a with
        | none => exact ihl.2
        | some v => exact ihl.2.cons v)
    (by
      intro a a' b b' l₁ l₂ ha hb hl iha ihb ihl
      refine ⟨fun p => ?_, ?_⟩
      · simp only [walkList, List.flatMap_append]
        have hA := block_perm path0 excl fty ha iha p
        have hB := block_perm path0 excl fty hb ihb p
        have h1 := hA.append (hB.append (ihl.1 p))
        refine h1.trans ?_
        rw [← List.append_assoc, ← List.append_assoc]
        exact List.perm_append_comm.append (List.Perm.refl _)
      · simp only [List.filterMap_cons, ← treeEquiv_fileNameOf ha,
          ← treeEquiv_fileNameOf hb]
        cases fileNameOf a with
        | none =>
          cases fileNameOf b with
          | none => exact ihl.2
          | some w => exact ihl.2.cons w
        | some v =>
          cases fileNameOf b with
          | none => exact ihl.2.cons v
          | some w => exact ((ihl.2.cons w).cons v).trans (List.Perm.swap w v _))
    (by
      intro l₁ l₂ l₃ h1 h2 ih1 ih2
      exact ⟨fun p => (ih1.1 p).trans (ih2.1 p), ih1.2.trans ih2.2⟩)

theorem scanPairs_perm (path : String) (excl fty : List String) {t t' : FSTree}
    (h : TreeEquiv t t') :
    (scanPairs path t excl fty).Perm (scanPairs path t' excl fty) := by
  cases h with
  | file n c => exact List.Perm.refl _
  | dir n b hch =>
    have hcp := childrenPerm_scan path excl fty hch
    rw [scanPairs_eq_flatMap, scanPairs_eq_flatMap]
    cases b
    · simp [walk]
    · simp only [walk, List.flatMap_cons]
      exact (scanGroup_perm_files path excl fty path hcp.2).append (hcp.1 path)

/-- C9: `scan_directory` is deterministic up to the set of entries present:
for two trees holding the same entries with children enumerated in any
orders (the walk's enumeration order), the returned sorted list — and hence
the combined output — is identical. -/
theorem C9_scan_walk_order_invariant (path : String) (excl fty : List String)
    {t t' : FSTree} (h : TreeEquiv t t') :
    scan_directory path t excl fty = scan_directory path t' excl fty := by
  rw [scan_directory, scan_directory]
  exact @List.eq_of_perm_of_sorted (String × String) (fun a b => tupleLe a b = true) _ _ _
    (((List.perm_insertionSort _ _).trans (scanPairs_perm path excl fty h)).trans
      (List.perm_insertionSort _ _).symm)
    (List.sorted_insertionSort _ _) (List.sorted_insertionSort _ _)

/-- Concrete run of C9: the same directory enumerated in two different
orders scans to the same list. -/
theorem C9_scan_walk_order_invariant_witness :
    TreeEquiv
        (.dir "p" true [.file "a.py" (.ok "A"), .file "b.txt" (.ok "B")])
        (.dir "p" true [.file "b.txt" (.ok "B"), .file "a.py" (.ok "A")])
    ∧ scan_directory "/p"
        (.dir "p" true [.file "a.py" (.ok "A"), .file "b.txt" (.ok "B")]) ["venv"] []
      = scan_directory "/p"
          (.dir "p" true [.file "b.txt" (.ok "B"), .file "a.py" (.ok "A")]) ["venv"] [] :=
  ⟨TreeEquiv.dir "p" true
     (ChildrenPerm.swap (TreeEquiv.file "a.py" (.ok "A")) (TreeEquiv.file "b.txt" (.ok "B"))
       ChildrenPerm.nil),
   C9_scan_walk_order_invariant "/p" ["venv"] []
     (TreeEquiv.dir "p" true
       (ChildrenPerm.swap (TreeEquiv.file "a.py" (.ok "A"))
         (TreeEquiv.file "b.txt" (.ok "B")) ChildrenPerm.nil))⟩

/-! Distinct sibling names: the second file-system well-formedness fact. -/

/-- No two entries of one directory listing share a name. -/
def namesDistinct : List FSTree → Bool
  | [] => true
  | c :: cs => !(cs.any (fun d => d.name.data == c.name.data)) && namesDistinct cs

mutual
/-- Sibling names are distinct throughout the tree. -/
def uniqueNames : FSTree → Bool
  | .file _ _ => true
  | .dir _ _ ch => namesDistinct ch && uniqueNamesList ch

def uniqueNamesList : List FSTree → Bool
  | [] => true
  | c :: cs => uniqueNames c && uniqueNamesList cs
end

theorem namesDistinct_head {c : FSTree} {cs : List FSTree}
    (h : namesDistinct (c :: cs) = true) :
    (∀ d ∈ cs, ¬ d.name.data = c.name.data) ∧ namesDistinct cs = true := by
  rw [namesDistinct, Bool.and_eq_true, Bool.not_eq_true'] at h
  refine ⟨?_, h.2⟩
  intro d hd hde
  have := h.1
  rw [List.any_eq_false] at this
  have hd2 := this d hd
  rw [hde] at hd2
  simp at hd2

theorem uniqueNamesList_mem {cs : List FSTree} (h : uniqueNamesList cs = true) :
    ∀ c ∈ cs, uniqueNames c = true := by
  induction cs with
  | nil => intro c hc; cases hc
  | cons c cs ih =>
    rw [uniqueNamesList, Bool.and_eq_true] at h
    intro d hd
    cases hd with
    | head => exact h.1
    | tail _ hd => exact ih h.2 d hd

theorem uniqueNames_dir {n : String} {b : Bool} {ch : List FSTree}
    (h : uniqueNames (.dir n b ch) = true) :
    namesDistinct ch = true ∧ uniqueNamesList ch = true := by
  rw [uniqueNames, Bool.and_eq_true] at h
  exact h

/-! String cancellation facts for distinctness of walked paths. -/

theorem append_sep_inj : ∀ {a b u v : List Char},
    (∀ c ∈ a, ¬ c = '/') → (∀ c ∈ b, ¬ c = '/') →
    (u = [] ∨ ∃ w, u = '/' :: w) → (v = [] ∨ ∃ w, v = '/' :: w) →
    a ++ u = b ++ v → a = b ∧ u = v := by
  intro a
  induction a with
  | nil =>
    intro b u v ha hb hu hv h
    cases b with
    | nil => exact ⟨rfl, h⟩
    | cons d bs =>
      rcases hu with hu | ⟨w, hw⟩
      · rw [hu] at h
        cases h
      · rw [hw] at h
        rw [List.nil_append] at h
        have hd : d = '/' := List.head_eq_of_cons_eq h.symm
        exact absurd hd (hb d (List.mem_cons_self d bs))
  | cons c as ih =>
    intro b u v ha hb hu hv h
    cases b with
    | nil =>
      rcases hv with hv | ⟨w, hw⟩
      · rw [hv] at h
        cases h
      · rw [hw, List.nil_append] at h
        have hc : c = '/' := List.head_eq_of_cons_eq h
        exact absurd hc (ha c (List.mem_cons_self c as))
    | cons d bs =>
      rw [List.cons_append, List.cons_append] at h
      have hcd : c = d := List.head_eq_of_cons_eq h
      have htail : as ++ u = bs ++ v := List.tail_eq_of_cons_eq h
      have := ih (fun x hx => ha x (List.mem_cons_of_mem c hx))
        (fun x hx => hb x (List.mem_cons_of_mem d hx)) hu hv htail
      exact ⟨by rw [hcd, this.1], this.2⟩

/-- Joining a directory path with a slash-free file name is injective. -/
theorem join_file_inj {r r' f f' : String}
    (hf : ∀ c ∈ f.data, ¬ c = '/') (hf' : ∀ c ∈ f'.data, ¬ c = '/')
    (h : path_join r f = path_join r' f') : r = r' ∧ f = f' := by
  have hd : r.data ++ '/' :: f.data = r'.data ++ '/' :: f'.data := by
    rw [← path_join_data, ← path_join_data, h]
  have hrev : f.data.reverse ++ '/' :: r.data.reverse
      = f'.data.reverse ++ '/' :: r'.data.reverse := by
    have h2 := congrArg List.reverse hd
    simpa [List.reverse_append, List.append_assoc] using h2
  have hinj := append_sep_inj
    (fun c hc => hf c (List.mem_reverse.mp hc))
    (fun c hc => hf' c (List.mem_reverse.mp hc))
    (Or.inr ⟨r.data.reverse, rfl⟩) (Or.inr ⟨r'.data.reverse, rfl⟩) hrev
  constructor
  · have := List.tail_eq_of_cons_eq hinj.2
    exact data_eq_iff.mp (List.reverse_inj.mp this)
  · exact data_eq_iff.mp (List.reverse_inj.mp hinj.1)

theorem join_cancel_left {p x y : String} (h : path_join p x = path_join p y) : x = y := by
  have hd : p.data ++ '/' :: x.data = p.data ++ '/' :: y.data := by
    rw [← path_join_data, ← path_join_data, h]
  have := List.append_cancel_left hd
  exact data_eq_iff.mp (List.tail_eq_of_cons_eq this)

/-! Extra facts about the embedded string comparison. -/

theorem lexLt_append_cancel : ∀ (p x y : List Char),
    lexLt (p ++ x) (p ++ y) = lexLt x y := by
  intro p
  induction p with
  | nil => intro x y; rfl
  | cons c cs ih =>
    intro x y
    rw [List.cons_append, List.cons_append, lexLt, if_neg (lt_irrefl c),
      if_neg (lt_irrefl c)]
    exact ih x y

theorem lexLt_iff_lex : ∀ {x y : List Char},
    lexLt x y = true ↔ List.Lex (· < ·) x y := by
  intro x
  induction x with
  | nil =>
    intro y
    cases y with
    | nil =>
      constructor
      · intro h; cases h
      · intro h; cases h
    | cons b bs =>
      constructor
      · intro _; exact List.Lex.nil
      · intro _; rfl
  | cons a as ih =>
    intro y
    cases y with
    | nil =>
      constructor
      · intro h; cases h
      · intro h; cases h
    | cons b bs =>
      rw [lexLt]
      by_cases hab : a < b
      · rw [if_pos hab]
        constructor
        · intro _; exact List.Lex.rel hab
        · intro _; rfl
      · rw [if_neg hab]
        by_cases hba : b < a
        · rw [if_pos hba]
          constructor
          · intro h; cases h
          · intro h
            cases h with
            | rel h2 => exact absurd h2 hab
            | cons h2 => exact absurd rfl (ne_of_gt hba)
        · have heq : a = b := le_antisymm (not_lt.mp hba) (not_lt.mp hab)
          subst heq
          rw [if_neg hab]
          constructor
          · intro h
            exact List.Lex.cons (ih.mp h)
          · intro h
            cases h with
            | rel h2 => exact absurd h2 (lt_irrefl a)
            | cons h2 => exact ih.mpr h2

/-! Shape of the scanned pairs: absolute = root ++ "/" ++ relative. -/

theorem scanPairs_abs_eq (path : String) (t : FSTree) (excl fty : List String) :
    ∀ pr ∈ scanPairs path t excl fty, pr.1 = path ++ "/" ++ pr.2 := by
  intro pr hpr
  rcases mem_scanPairs hpr with ⟨g, hg, _, f, hf, _, _, hpr_eq⟩
  rcases walk_root_shape path t g hg with h | ⟨s, h⟩
  · rw [hpr_eq]
    show path_join g.1 f = path ++ "/" ++ relpath (path_join g.1 f) path
    rw [h, show path_join path f = path ++ "/" ++ f from rfl, relpath_join]
  · rw [hpr_eq]
    show path_join g.1 f = path ++ "/" ++ relpath (path_join g.1 f) path
    rw [h, show path_join (path ++ "/" ++ s) f = (path ++ "/" ++ s) ++ "/" ++ f from rfl,
      join_assoc, relpath_join]

/-! Absolute paths of all walked files, and their distinctness. -/

/-- The absolute paths of one walk group's files. -/
def absOf (g : String × List String) : List String :=
  g.2.map (fun f => path_join g.1 f)

/-- The absolute paths of every file the walk visits. -/
def walkAbs (path : String) (t : FSTree) : List String :=
  (walk path t).flatMap absOf

def walkListAbs (path : String) (cs : List FSTree) : List String :=
  (walkList path cs).flatMap absOf

theorem walkAbs_file (path n : String) (c : Except String String) :
    walkAbs path (.file n c) = [] := by
  simp [walkAbs, walk]

theorem walkAbs_dir_false (path n : String) (ch : List FSTree) :
    walkAbs path (.dir n false ch) = [] := by
  simp [walkAbs, walk]

theorem walkAbs_dir_true (path n : String) (ch : List FSTree) :
    walkAbs path (.dir n true ch)
      = (ch.filterMap fileNameOf).map (fun f => path_join path f)
        ++ walkListAbs path ch := by
  rw [walkAbs, walkListAbs]
  simp only [walk, List.flatMap_cons]
  rfl

theorem walkListAbs_nil (path : String) : walkListAbs path [] = [] := by
  simp [walkListAbs, walkList]

theorem walkListAbs_cons (path : String) (c : FSTree) (cs : List FSTree) :
    walkListAbs path (c :: cs)
      = (if c.isDir then walkAbs (path_join path c.name) c else [])
        ++ walkListAbs path cs := by
  rw [walkListAbs, walkList, List.flatMap_append, walkListAbs]
  congr 1
  cases hd : c.isDir
  · simp
  · simp [walkAbs]

theorem walkAbs_prefix (path : String) (t : FSTree) :
    ∀ a ∈ walkAbs path t, ∃ s, a = path ++ "/" ++ s := by
  intro a ha
  rw [walkAbs] at ha
  rcases List.mem_flatMap.mp ha with ⟨g, hg, haf⟩
  rcases List.mem_map.mp haf with ⟨f, hf, hjoin⟩
  rcases walk_root_shape path t g hg with h | ⟨s, h⟩
  · exact ⟨f, by rw [← hjoin, h]; rfl⟩
  · refine ⟨s ++ "/" ++ f, ?_⟩
    rw [← hjoin, h,
      show path_join (path ++ "/" ++ s) f = (path ++ "/" ++ s) ++ "/" ++ f from rfl,
      join_assoc]

theorem walkAbs_mem_shape {path : String} {t : FSTree} (hv : validNames t = true) :
    ∀ a ∈ walkAbs path t, ∃ f : String, validName f = true ∧ ∃ r, a = path_join r f := by
  intro a ha
  rw [walkAbs] at ha
  rcases List.mem_flatMap.mp ha with ⟨g, hg, haf⟩
  rcases List.mem_map.mp haf with ⟨f, hf, hjoin⟩
  exact ⟨f, walk_files_valid path t hv g hg f hf, g.1, hjoin.symm⟩

theorem filterMap_fileNameOf_sublist (ch : List FSTree) :
    (ch.filterMap fileNameOf).Sublist (ch.map FSTree.name) := by
  induction ch with
  | nil => simp
  | cons c cs ih =>
    cases c with
    | file n co =>
      rw [List.filterMap_cons, List.map_cons]
      exact ih.cons₂ n
    | dir n b ch2 =>
      rw [List.filterMap_cons, List.map_cons]
      exact ih.cons n

theorem namesDistinct_nodup {ch : List FSTree} (h : namesDistinct ch = true) :
    (ch.map FSTree.name).Nodup := by
  induction ch with
  | nil => simp
  | cons c cs ih =>
    obtain ⟨hne, hrest⟩ := namesDistinct_head h
    rw [List.map_cons, List.nodup_cons]
    refine ⟨?_, ih hrest⟩
    intro hmem
    rcases List.mem_map.mp hmem with ⟨d, hd, hde⟩
    exact hne d hd (congrArg String.data hde)

theorem rootFiles_nodup {ch : List FSTree} (hnd : namesDistinct ch = true) :
    (ch.filterMap fileNameOf).Nodup :=
  (filterMap_fileNameOf_sublist ch).nodup (namesDistinct_nodup hnd)

theorem filterMap_fileNameOf_valid {ch : List FSTree} (hv : validNamesList ch = true) :
    ∀ f ∈ ch.filterMap fileNameOf, validName f = true := by
  intro f hf
  rcases List.mem_filterMap.mp hf with ⟨c, hc, hcf⟩
  exact fileNameOf_valid (validNamesList_mem hv c hc) hcf

mutual
theorem walkAbs_nodup (path : String) (t : FSTree)
    (hv : validNames t = true) (hu : uniqueNames t = true) :
    (walkAbs path t).Nodup := by
  match t with
  | .file n c =>
    rw [walkAbs_file]
    exact List.nodup_nil
  | .dir n false ch =>
    rw [walkAbs_dir_false]
    exact List.nodup_nil
  | .dir n true ch =>
    rw [walkAbs_dir_true, List.nodup_append]
    obtain ⟨hnd, hul⟩ := uniqueNames_dir hu
    have hvl := validNames_children hv
    refine ⟨?_, (walkListAbs_nodup path ch hvl hnd hul).1, ?_⟩
    · exact List.Nodup.map_on (fun x _ y _ hxy => join_cancel_left hxy)
        (rootFiles_nodup hnd)
    · intro a ha hb
      rcases List.mem_map.mp ha with ⟨f, hf, hfa⟩
      rcases (walkListAbs_nodup path ch hvl hnd hul).2 a hb with ⟨c, hc, hcd, s, hcs⟩
      have hvf : validName f = true := filterMap_fileNameOf_valid hvl f hf
      have hxy : path_join path f = path_join path (c.name ++ "/" ++ s) := by
        rw [hfa, hcs]
        rfl
      have hfe : f = c.name ++ "/" ++ s := join_cancel_left hxy
      have hslash : '/' ∈ f.data := by
        rw [hfe, show (c.name ++ "/" ++ s).data = c.name.data ++ '/' :: s.data from
          path_join_data c.name s]
        exact List.mem_append_right _ (List.mem_cons_self '/' s.data)
      exact validName_no_slash hvf '/' hslash rfl

theorem walkListAbs_nodup (path : String) (cs : List FSTree)
    (hv : validNamesList cs = true) (hnd : namesDistinct cs = true)
    (hu : uniqueNamesList cs = true) :
    (walkListAbs path cs).Nodup
    ∧ ∀ a ∈ walkListAbs path cs, ∃ c ∈ cs, c.isDir = true ∧
        ∃ s, a = path ++ "/" ++ (c.name ++ "/" ++ s) := by
  match cs with
  | [] =>
    rw [walkListAbs_nil]
    exact ⟨List.nodup_nil, by intro a ha; cases ha⟩
  | c :: cs =>
    rw [walkListAbs_cons]
    rw [validNamesList, Bool.and_eq_true] at hv
    obtain ⟨hne, hndr⟩ := namesDistinct_head hnd
    rw [uniqueNamesList, Bool.and_eq_true] at hu
    have ihl := walkListAbs_nodup path cs hv.2 hndr hu.2
    constructor
    · rw [List.nodup_append]
      refine ⟨?_, ihl.1, ?_⟩
      · cases hd : c.isDir
        · simp
        · simp only [if_pos rfl]
          exact walkAbs_nodup (path_join path c.name) c hv.1 hu.1
      · intro a ha hb
        by_cases hd : c.isDir = true
        · rw [if_pos hd] at ha
          obtain ⟨s, hs⟩ := walkAbs_prefix (path_join path c.name) c a ha
          rcases ihl.2 a hb with ⟨c', hc', hcd', s', hs'⟩
          have h1 : a = path ++ "/" ++ (c.name ++ "/" ++ s) := by
            rw [hs, show path_join path c.name = path ++ "/" ++ c.name from rfl,
              join_assoc]
          have hxy : path_join path (c.name ++ "/" ++ s)
              = path_join path (c'.name ++ "/" ++ s') := by
            show path ++ "/" ++ (c.name ++ "/" ++ s) = path ++ "/" ++ (c'.name ++ "/" ++ s')
            rw [← h1, hs']
          have h2 : c.name ++ "/" ++ s = c'.name ++ "/" ++ s' := join_cancel_left hxy
          have hd2 : c.name.data ++ '/' :: s.data = c'.name.data ++ '/' :: s'.data := by
            rw [← path_join_data, ← path_join_data]
            exact congrArg String.data h2
          have hnames := append_sep_inj
            (validName_no_slash (validNames_name hv.1))
            (validName_no_slash (validNames_name (validNamesList_mem hv.2 c' hc')))
            (Or.inr ⟨s.data, rfl⟩) (Or.inr ⟨s'.data, rfl⟩) hd2
          exact hne c' hc' (congrArg String.data (data_eq_iff.mp hnames.1).symm)
        · rw [if_neg hd] at ha
          cases ha
    · intro a ha
      rcases List.mem_append.mp ha with ha | ha
      · by_cases hd : c.isDir = true
        · rw [if_pos hd] at ha
          obtain ⟨s, hs⟩ := walkAbs_prefix (path_join path c.name) c a ha
          refine ⟨c, List.mem_cons_self c cs, hd, s, ?_⟩
          rw [hs, show path_join path c.name = path ++ "/" ++ c.name from rfl, join_assoc]
        · rw [if_neg hd] at ha
          cases ha
      · rcases ihl.2 a ha with ⟨c', hc', hcd', s', hs'⟩
        exact ⟨c', List.mem_cons_of_mem c hc', hcd', s', hs'⟩
end

/-! The scanned absolute paths are distinct, and the sort is strict. -/

theorem filterMap_guard_fst_sublist (path0 r : String) (P : String → Bool) :
    ∀ l : List String,
      ((l.filterMap (fun file => if P file then
          some (path_join r file, relpath (path_join r file) path0) else none)).map
        Prod.fst).Sublist (l.map (fun f => path_join r f)) := by
  intro l
  induction l with
  | nil => simp
  | cons f fs ih =>
    rw [List.filterMap_cons, List.map_cons]
    by_cases hp : P f = true
    · rw [if_pos hp, List.map_cons]
      exact ih.cons₂ _
    · rw [if_neg hp]
      exact ih.cons _

theorem scanGroup_fst_sublist (path : String) (excl fty : List String)
    (g : String × List String) :
    ((scanGroup path excl fty g).map Prod.fst).Sublist (absOf g) := by
  rw [scanGroup]
  by_cases hskip : should_skip_path g.1 excl = true
  · rw [if_pos hskip]
    simp [absOf]
  · rw [if_neg hskip]
    exact filterMap_guard_fst_sublist path g.1 _ g.2

theorem flatMap_sublist {α β : Type} (f g : α → List β) :
    ∀ l : List α, (∀ x ∈ l, (f x).Sublist (g x)) → (l.flatMap f).Sublist (l.flatMap g) := by
  intro l h
  induction l with
  | nil => simp
  | cons a as ih =>
    rw [List.flatMap_cons, List.flatMap_cons]
    exact (h a (List.mem_cons_self a as)).append
      (ih (fun x hx => h x (List.mem_cons_of_mem a hx)))

theorem scanFirsts_sublist_walkAbs (path : String) (t : FSTree)
    (excl fty : List String) :
    ((scanPairs path t excl fty).map Prod.fst).Sublist (walkAbs path t) := by
  rw [scanPairs_eq_flatMap, walkAbs, List.map_flatMap]
  exact flatMap_sublist _ _ _ (fun g _ => scanGroup_fst_sublist path excl fty g)

/-- C3: on a well-formed tree (legal entry names, distinct sibling names —
what a real file system guarantees), the list `scan_directory` returns is
strictly sorted lexicographically by the relative-path component, even
though the code sorts the `(absolute, relative)` pairs: every absolute path
is the project path plus the relative path, so the tuple order collapses to
a strict order on the relative paths. -/
theorem C3_scan_strictly_sorted_by_relpath (path : String) (t : FSTree)
    (excl fty : List String) (hv : validNames t = true) (hu : uniqueNames t = true) :
    List.Pairwise (fun a b : String × String => List.Lex (· < ·) a.2.data b.2.data)
      (scan_directory path t excl fty) := by
  have hperm : (scan_directory path t excl fty).Perm (scanPairs path t excl fty) :=
    List.perm_insertionSort _ _
  have hsorted : List.Pairwise (fun a b => tupleLe a b = true)
      (scan_directory path t excl fty) :=
    List.sorted_insertionSort _ _
  have habs : ∀ pr ∈ scan_directory path t excl fty, pr.1 = path ++ "/" ++ pr.2 :=
    fun pr hpr => scanPairs_abs_eq path t excl fty pr (hperm.mem_iff.mp hpr)
  have hnodup : ((scan_directory path t excl fty).map Prod.fst).Nodup := by
    have h1 : ((scanPairs path t excl fty).map Prod.fst).Nodup :=
      (scanFirsts_sublist_walkAbs path t excl fty).nodup (walkAbs_nodup path t hv hu)
    exact ((hperm.map Prod.fst).nodup_iff).mpr h1
  have hpairne : List.Pairwise (fun a b : String × String => a.1 ≠ b.1)
      (scan_directory path t excl fty) := List.pairwise_map.mp hnodup
  refine List.Pairwise.imp_of_mem ?_ (hsorted.and hpairne)
  intro a b ha hb hab
  obtain ⟨hle, hne⟩ := hab
  rw [tupleLe_iff] at hle
  rcases hle with hlt | ⟨heq, _⟩
  · have ha1 := habs a ha
    have hb1 := habs b hb
    rw [ha1, hb1] at hlt
    have hstrip : lexLt a.2.data b.2.data = true := by
      have hd : (path ++ "/" ++ a.2).data = (path.data ++ ['/']) ++ a.2.data := by
        simp [String.data_append]
      have hd' : (path ++ "/" ++ b.2).data = (path.data ++ ['/']) ++ b.2.data := by
        simp [String.data_append]
      rw [hd, hd', lexLt_append_cancel] at hlt
      exact hlt
    exact lexLt_iff_lex.mp hstrip
  · exact absurd heq hne

/-- Concrete run of C3: a two-level project scans to a strictly sorted
list of relative paths. -/
theorem C3_scan_strictly_sorted_by_relpath_witness :
    validNames
        (.dir "p" true
          [.dir "sub" true [.file "c.py" (.ok "C")],
           .file "a.py" (.ok "A"), .file "b.py" (.ok "B")]) = true
    ∧ uniqueNames
        (.dir "p" true
          [.dir "sub" true [.file "c.py" (.ok "C")],
           .file "a.py" (.ok "A"), .file "b.py" (.ok "B")]) = true
    ∧ List.Pairwise (fun a b : String × String => List.Lex (· < ·) a.2.data b.2.data)
        (scan_directory "/p"
          (.dir "p" true
            [.dir "sub" true [.file "c.py" (.ok "C")],
             .file "a.py" (.ok "A"), .file "b.py" (.ok "B")]) ["venv"] [".py"]) :=
  ⟨by decide, by decide,
   C3_scan_strictly_sorted_by_relpath "/p"
     (.dir "p" true
       [.dir "sub" true [.file "c.py" (.ok "C")],
        .file "a.py" (.ok "A"), .file "b.py" (.ok "B")]) ["venv"] [".py"]
     (by decide) (by decide)⟩

end Combiner
